import Mathlib

/-!
# Verification of the latent chord-substitution engine

Shallow embedding of the core of `BachLatentNavigator`:
the vector-algebra module (`distance.js`) and the substitution
strategies plus their orchestrator (`latentStrategies.js`).

Modelling conventions:

* JavaScript numbers are modelled as exact rationals `ℚ`.  Reading an
  array out of range yields `undefined`, and arithmetic on `undefined`
  yields `NaN`; a possibly-`NaN` number is modelled as `Option ℚ` with
  `none` standing for `NaN`.
* `Math.sqrt` is a strictly monotone injection on the nonnegative reals,
  so `euclidean` and `magnitude` are modelled by the *radicand* (the sum
  of squares) rather than its square root.  Every use of these values in
  the source is a comparison (`sort`, `<`, `=== 0`), and all such
  comparisons are invariant under the strictly monotone `sqrt`.
* `Math.acos` values are kept symbolic in the type `JSAngle`: `acos` is
  strictly decreasing on `[-1, 1]`, so the JS `<` on angles is the
  reversed comparison of the cosine arguments (see `JSAngle.ltB`).
* `Array.prototype.sort` with comparator `(a, b) => a.distance - b.distance`
  is a stable sort by that key (ES2019).  A stable sort with respect to a
  total transitive relation has a unique result, so we model it with the
  structurally recursive (hence kernel-evaluable) `List.insertionSort`,
  which is stable (`List.sublist_insertionSort`).
* `throw` is modelled with `Except String`; a thrown exception propagates
  through `do`-sequencing exactly as it propagates up the JS call stack.
* The module-level mutable `globalChordDict` set by `setChordDict` is
  passed explicitly as a `dict` argument to every function that reads it.
-/

/-- A JavaScript number that may be `NaN` (`none` = `NaN`). -/
abbrev JSNum := Option ℚ

/-- JS addition; `NaN` is absorbing. -/
def jsAdd : JSNum → JSNum → JSNum
  | some a, some b => some (a + b)
  | _, _ => none

/-- JS multiplication; `NaN` is absorbing.  (The source never multiplies
`0 * Infinity`, the only other `NaN` source of `*`.) -/
def jsMul : JSNum → JSNum → JSNum
  | some a, some b => some (a * b)
  | _, _ => none

/-- JS subtraction; `NaN` is absorbing. -/
def jsSubN : JSNum → JSNum → JSNum
  | some a, some b => some (a - b)
  | _, _ => none

/-- A chord record of the dictionary.  Only the fields the engine reads
are modelled: `id` and the latent vector `z`.  (`z2D` and `pitchclass`
are opaque to the engine and never read by the verified code.) -/
structure Chord where
  id : String
  z : List ℚ
deriving DecidableEq

/-- A plain (never-`NaN`) vector viewed as a list of JS numbers. -/
def liftV (v : List ℚ) : List JSNum := v.map some

/-- `euclidean(a, b)` from `distance.js`: length check, then the loop
`sumOfSquares += (a[i] - b[i]) ** 2`.  The JS function returns
`Math.sqrt(sumOfSquares)`; we return the radicand `sumOfSquares`
(see the module doc comment: all uses are order/zero comparisons,
which `sqrt` preserves). -/
def euclidean (a b : List JSNum) : Except String JSNum :=
  if a.length ≠ b.length then
    .error ("Vectors must have the same dimension for distance calculation.")
  else
    .ok ((a.zip b).foldl (fun acc p => jsAdd acc (jsMul (jsSubN p.1 p.2) (jsSubN p.1 p.2)))
      (some 0))

/-- `subtract(a, b)` from `distance.js`: `a.map((val, i) => val - b[i])`.
There is no length check: when `i ≥ b.length`, `b[i]` is `undefined`
and `val - undefined` is `NaN` (`none`). -/
def subtract (a b : List ℚ) : List JSNum :=
  a.enum.map (fun p => (b.get? p.1).map (fun w => p.2 - w))

/-- `add(a, b)` from `distance.js`: `a.map((val, i) => val + b[i])`,
with the same out-of-range behaviour as `subtract`. -/
def add (a b : List ℚ) : List JSNum :=
  a.enum.map (fun p => (b.get? p.1).map (fun w => p.2 + w))

/-- `scale(v, t)` from `distance.js`: `v.map(val => val * t)`. -/
def scale (v : List ℚ) (t : ℚ) : List ℚ :=
  v.map (fun val => val * t)

/-- `magnitude(v)` from `distance.js`:
`Math.sqrt(v.reduce((sum, val) => sum + val * val, 0))`, modelled by the
radicand (sum of squares); `NaN` entries propagate. -/
def magnitude (v : List JSNum) : JSNum :=
  v.foldl (fun sum val => jsAdd sum (jsMul val val)) (some 0)

/-- `dotProduct(a, b)` from `distance.js`:
`a.reduce((sum, val, i) => sum + val * b[i], 0)`; an out-of-range
`b[i]` is `undefined` and poisons the sum with `NaN`. -/
def dotProduct (a b : List JSNum) : JSNum :=
  a.enum.foldl (fun sum p => jsAdd sum (jsMul p.2 ((b.get? p.1).join))) (some 0)

/-- The JS number returned by `angleBetween`, kept symbolic:
`acosOf d s` stands for `Math.acos(clamp(d / Math.sqrt s, -1, 1))`
(the clamp is the identity in exact arithmetic, by Cauchy–Schwarz),
`posInf` is the zero-magnitude sentinel `Infinity`, and `nanV` is the
`NaN` produced when a vector has `NaN` entries. -/
inductive JSAngle where
  | acosOf (d s : ℚ)
  | posInf
  | nanV
deriving DecidableEq

/-- Decides `d₁ / √s₁ > d₂ / √s₂` for `s₁, s₂ > 0` by sign analysis and
squaring (no square roots needed). -/
def cosGtB (d₁ s₁ d₂ s₂ : ℚ) : Bool :=
  if 0 ≤ d₁ then
    decide (d₂ < 0) || decide (d₂ ^ 2 * s₁ < d₁ ^ 2 * s₂)
  else
    decide (d₂ < 0) && decide (d₁ ^ 2 * s₂ < d₂ ^ 2 * s₁)

/-- The JS `<` on the numbers represented by `JSAngle`.  `acos` is
strictly decreasing, so comparing two `acos` values compares the cosine
arguments in reverse; any comparison with `NaN` is `false`; nothing is
below `Infinity` except a finite `acos` value. -/
def JSAngle.ltB : JSAngle → JSAngle → Bool
  | .acosOf d₁ s₁, .acosOf d₂ s₂ => cosGtB d₁ s₁ d₂ s₂
  | .acosOf _ _, .posInf => true
  | _, _ => false

/-- `angleBetween(a, b)` from `distance.js`.  The source computes
`magA = magnitude(a)`, `magB = magnitude(b)`, returns `Infinity` when
`magA === 0 || magB === 0` (note `NaN === 0` is `false`), and otherwise
`Math.acos(clamp(dot / (magA * magB)))`.  Since `magA * magB = √(sa·sb)`
for the radicands `sa`, `sb`, the result is `acosOf dot (sa * sb)`. -/
def angleBetween (a b : List JSNum) : JSAngle :=
  let dot := dotProduct a b
  let magA := magnitude a
  let magB := magnitude b
  if magA = some 0 ∨ magB = some 0 then .posInf
  else
    match dot, magA, magB with
    | some d, some sa, some sb => .acosOf d (sa * sb)
    | _, _, _ => .nanV

/-- A dictionary entry annotated with its distance to the query point:
the JS object spread `{...chord, distance}` used by `knn` and by
`linearInterpolation`. -/
structure DistChord where
  chord : Chord
  distance : JSNum
deriving DecidableEq

/-- The sort key comparison used to model the JS comparator
`(a, b) => a.distance - b.distance` on distances.  On plain numbers it
is `≤`; the `NaN` rows are ordered arbitrarily (JS leaves the order
unspecified when a comparator returns `NaN`), but in a way that is total
and transitive so that the stable-sort model is well defined.  No claim
exercises `NaN` distances. -/
def optLeB : JSNum → JSNum → Bool
  | none, _ => true
  | some _, none => false
  | some p, some q => decide (p ≤ q)

/-- The comparator relation on annotated entries: `x` sorts no later
than `y`. -/
def distR (x y : DistChord) : Prop := optLeB x.distance y.distance = true

instance : DecidableRel distR := fun x y => instDecidableEqBool (optLeB x.distance y.distance) true

/-- `array.sort((a, b) => a.distance - b.distance)`: the stable JS sort,
modelled by the stable, structurally recursive `insertionSort`. -/
def sortByDistance (l : List DistChord) : List DistChord :=
  l.insertionSort distR

/-- JS `array.slice(1, e)` (with a possibly negative end index `e`):
a negative `e` counts from the end of the array. -/
def jsSlice1 (l : List α) (e : ℤ) : List α :=
  (l.drop 1).take
    ((if e < 0 then max ((l.length : ℤ) + e) 0 else min e (l.length : ℤ)) - 1).toNat

/-- `knn(targetZ, allLatents, k, metric)` from `distance.js`: annotate
every chord with its distance to `targetZ`, stable-sort ascending, and
return `distances.slice(1, k + 1)` (dropping the first sorted entry). -/
def knn (targetZ : List ℚ) (allLatents : List Chord) (k : ℤ) (metric : String) :
    Except String (List DistChord) :=
  if metric = "euclidean" then do
    let distances ← allLatents.mapM (fun chord => do
      let d ← euclidean (liftV targetZ) (liftV chord.z)
      pure (⟨chord, d⟩ : DistChord))
    pure (jsSlice1 (sortByDistance distances) (k + 1))
  else
    .error ("Unsupported distance metric: " ++ metric)

/-- `getChordById(id)` from `latentStrategies.js`:
`globalChordDict.find(chord => chord.id === id)`. -/
def getChordById (dict : List Chord) (id : String) : Option Chord :=
  dict.find? (fun chord => chord.id == id)

/-- `knnSubstitution(B, k)` from `latentStrategies.js`. -/
def knnSubstitution (dict : List Chord) (B : Chord) (k : ℤ) : Except String String := do
  let neighbors ← knn B.z dict k ("euclidean")
  match neighbors.head? with
  | some closestNeighbor => pure closestNeighbor.chord.id
  | none => pure B.id

/-- Return value of `linearInterpolation`. -/
structure LinResult where
  id : String
  geometricPoint : List JSNum
deriving DecidableEq

/-- `linearInterpolation(A, C)` from `latentStrategies.js`: midpointV
`add(scale(A.z, 0.5), scale(C.z, 0.5))`, then the dictionary entry
nearest to it (stable sort, first element). -/
def linearInterpolation (dict : List Chord) (A C : Chord) : Except String LinResult := do
  let interpolatedPoint := add (scale A.z 0.5) (scale C.z 0.5)
  let distances ← dict.mapM (fun chord => do
    let d ← euclidean interpolatedPoint (liftV chord.z)
    pure (⟨chord, d⟩ : DistChord))
  let sorted := sortByDistance distances
  match sorted.head? with
  | some nearestChord => pure ⟨nearestChord.chord.id, interpolatedPoint⟩
  | none => pure ⟨C.id, interpolatedPoint⟩

/-- Return value of `knnAngularAlignment`. -/
structure AngResult where
  id : String
  kNeighbors : List DistChord
deriving DecidableEq

/-- `knnAngularAlignment(A, B, k)` from `latentStrategies.js`: screen the
`knn` candidates of `B` for the one minimizing the angle to
`vectorAB = subtract(B.z, A.z)`; the `forEach` accumulation
(`bestAngle` starting at `Infinity`, strict `<` update) is a fold. -/
def knnAngularAlignment (dict : List Chord) (A B : Chord) (k : ℤ) :
    Except String AngResult := do
  let neighbors ← knn B.z dict k ("euclidean")
  let vectorAB := subtract B.z A.z
  let best := neighbors.foldl
    (fun best candidate =>
      let vectorAC := subtract candidate.chord.z A.z
      let angle := angleBetween vectorAB vectorAC
      if angle.ltB best.1 then (angle, some candidate) else best)
    ((JSAngle.posInf, none) : JSAngle × Option DistChord)
  match best.2 with
  | some bestCandidate => pure ⟨bestCandidate.chord.id, neighbors⟩
  | none => pure ⟨B.id, neighbors⟩

/-- The `details` record assembled by `substitutePhrase`. -/
structure SubstitutionDetails where
  strategy : String
  originalA : Option Chord
  originalB : Option Chord
  originalC : Option Chord
  substitutedChordId : Option String
  geometricPoints : List (List JSNum)
  kNeighbors : List DistChord
deriving DecidableEq

/-- The return value of `substitutePhrase`. -/
structure SubstResult where
  generatedPhraseIds : List String
  substitutionDetails : SubstitutionDetails
deriving DecidableEq

/-- `const k = params.k || 5` from `substitutePhrase`: the `k` property
(`none` = absent/`undefined`/`null`) with the JS falsy value `0` (like
absence) mapped to the default `5`. -/
def jsK (paramsK : Option ℤ) : ℤ :=
  match paramsK with
  | some v => if v = 0 then 5 else v
  | none => 5

/-- `substitutePhrase(originalPhraseIds, targetIndices, strategy, params)`
from `latentStrategies.js`.  `paramsK` models the `params.k` property;
`fullPhrase` is the id-resolved phrase with unresolved ids *filtered
out* (`.filter(c => c)`). -/
def substitutePhrase (dict : List Chord) (originalPhraseIds : List String)
    (targetIndices : List ℤ) (strategy : String) (paramsK : Option ℤ) :
    Except String SubstResult :=
  let fullPhrase := (originalPhraseIds.map (getChordById dict)).reduceOption
  let details : SubstitutionDetails :=
    { strategy := strategy, originalA := none, originalB := none, originalC := none,
      substitutedChordId := none, geometricPoints := [], kNeighbors := [] }
  let k : ℤ := jsK paramsK
  match targetIndices with
  | [i] =>
    if 0 < i ∧ i < (originalPhraseIds.length : ℤ) - 1 then
      match fullPhrase.get? (i - 1).toNat, fullPhrase.get? i.toNat,
          fullPhrase.get? (i + 1).toNat with
      | some A, some B, some C =>
        let details := { details with
            originalA := some A
            originalB := some B
            originalC := some C }
        if strategy = "knn" then do
          let sid ← knnSubstitution dict B k
          let nb ← knn B.z dict k ("euclidean")
          let details := { details with substitutedChordId := some sid, kNeighbors := nb }
          pure ⟨originalPhraseIds.set i.toNat sid, details⟩
        else if strategy = "linear" then do
          let result ← linearInterpolation dict A C
          let details := { details with
              substitutedChordId := some result.id
              geometricPoints := [result.geometricPoint] }
          pure ⟨originalPhraseIds.set i.toNat result.id, details⟩
        else if strategy = "angular" then do
          let result ← knnAngularAlignment dict A B k
          let details := { details with
              substitutedChordId := some result.id
              kNeighbors := result.kNeighbors }
          pure ⟨originalPhraseIds.set i.toNat result.id, details⟩
        else
          let details := { details with substitutedChordId := some B.id }
          pure ⟨originalPhraseIds.set i.toNat B.id, details⟩
      | _, _, _ => pure ⟨originalPhraseIds, details⟩
    else
      pure ⟨originalPhraseIds, details⟩
  | _ => pure ⟨originalPhraseIds, details⟩

/-- Squared Euclidean distance of two plain vectors
(specification-side helper used in theorem statements). -/
def sqDist (a b : List ℚ) : ℚ :=
  ((a.zip b).map (fun p => (p.1 - p.2) * (p.1 - p.2))).sum


/-! ## Basic lemmas about the embedded primitives -/

theorem optLeB_trans {a b c : JSNum} (h₁ : optLeB a b = true) (h₂ : optLeB b c = true) :
    optLeB a c = true := by
  cases a <;> cases b <;> cases c <;> simp_all [optLeB] <;> exact le_trans h₁ h₂

theorem optLeB_total (a b : JSNum) : optLeB a b = true ∨ optLeB b a = true := by
  cases a <;> cases b <;> simp_all [optLeB] <;> exact le_total _ _

instance : IsTrans DistChord distR :=
  ⟨fun _ _ _ h₁ h₂ => optLeB_trans h₁ h₂⟩

instance : IsTotal DistChord distR :=
  ⟨fun x y => optLeB_total x.distance y.distance⟩

theorem sortByDistance_perm (l : List DistChord) : (sortByDistance l).Perm l :=
  List.perm_insertionSort distR l

theorem sortByDistance_pairwise (l : List DistChord) :
    (sortByDistance l).Pairwise distR :=
  List.sorted_insertionSort distR l

/-- Stability of the modelled JS sort, in filter form: the entries
satisfying a predicate that is compatible with ties appear in the sorted
list exactly in their original order. -/
theorem sortByDistance_filter (p : DistChord → Bool) (l : List DistChord)
    (hp : ∀ x y, p x = true → p y = true → distR x y) :
    (sortByDistance l).filter p = l.filter p := by
  have hpair : (l.filter p).Pairwise distR :=
    List.pairwise_of_forall_mem_list
      (fun x hx y hy => hp x y (List.of_mem_filter hx) (List.of_mem_filter hy))
  have hsub : (l.filter p).Sublist (sortByDistance l) :=
    List.sublist_insertionSort hpair (List.filter_sublist l)
  have hsub2 : (l.filter p).Sublist ((sortByDistance l).filter p) := by
    have h2 := hsub.filter p
    rwa [List.filter_filter,
      show ((fun a => p a && p a) = p) from funext (fun a => Bool.and_self (p a))] at h2
  have hlen : ((sortByDistance l).filter p).length = (l.filter p).length :=
    ((sortByDistance_perm l).filter p).length_eq
  exact (hsub2.eq_of_length hlen.symm).symm

theorem mapM_ok {α β : Type} (f : α → Except String β) (g : α → β) :
    ∀ (l : List α), (∀ a ∈ l, f a = .ok (g a)) → l.mapM f = .ok (l.map g) := by
  intro l
  induction l with
  | nil => intro _; rfl
  | cons a l ih =>
    intro h
    rw [List.mapM_cons, h a (List.mem_cons_self a l),
      ih (fun x hx => h x (List.mem_cons_of_mem a hx))]
    rfl

theorem foldl_jsAdd_some {α : Type} (f : α → ℚ) :
    ∀ (l : List α) (q : ℚ),
      l.foldl (fun acc x => jsAdd acc (some (f x))) (some q) = some (q + (l.map f).sum) := by
  intro l
  induction l with
  | nil => intro q; simp
  | cons a l ih =>
    intro q
    rw [List.foldl_cons, show jsAdd (some q) (some (f a)) = some (q + f a) from rfl, ih,
      List.map_cons, List.sum_cons, add_assoc]

theorem euclidean_lift (a b : List ℚ) (h : a.length = b.length) :
    euclidean (liftV a) (liftV b) = .ok (some (sqDist a b)) := by
  unfold euclidean
  rw [if_neg (by simp [liftV, h])]
  congr 1
  rw [liftV, liftV, List.zip_map, List.foldl_map]
  simp only [Prod.map_fst, Prod.map_snd, jsSubN, jsMul]
  rw [foldl_jsAdd_some (fun p => (p.1 - p.2) * (p.1 - p.2)) (a.zip b) 0]
  rw [sqDist, zero_add]

theorem euclidean_mismatch (a b : List JSNum) (h : a.length ≠ b.length) :
    euclidean a b
      = .error ("Vectors must have the same dimension for distance calculation.") := by
  unfold euclidean
  rw [if_pos h]

/-- Under a uniform dictionary dimension, the distance-annotation pass of
`knn` (and of `linearInterpolation` with a plain query point) succeeds
and annotates every chord with its squared distance to the query. -/
theorem distances_ok (v : List ℚ) (dict : List Chord) (D : ℕ) (hv : v.length = D)
    (hd : ∀ c ∈ dict, c.z.length = D) :
    (dict.mapM (fun chord => do
        let d ← euclidean (liftV v) (liftV chord.z)
        pure (⟨chord, d⟩ : DistChord)))
      = .ok (dict.map (fun chord => ⟨chord, some (sqDist v chord.z)⟩)) := by
  apply mapM_ok
  intro c hc
  rw [euclidean_lift v c.z (by rw [hv, hd c hc])]
  rfl

theorem knn_ok (v : List ℚ) (dict : List Chord) (k : ℤ) (D : ℕ) (hv : v.length = D)
    (hd : ∀ c ∈ dict, c.z.length = D) :
    knn v dict k ("euclidean")
      = .ok (jsSlice1 (sortByDistance
          (dict.map (fun c => ⟨c, some (sqDist v c.z)⟩))) (k + 1)) := by
  unfold knn
  rw [if_pos rfl, distances_ok v dict D hv hd]
  rfl

theorem jsSlice1_nonneg {α : Type} (l : List α) (k : ℤ) (hk : 0 ≤ k) :
    jsSlice1 l (k + 1) = (l.drop 1).take k.toNat := by
  unfold jsSlice1
  rw [if_neg (by omega)]
  apply List.take_eq_take.mpr
  simp only [List.length_drop]
  omega

theorem jsSlice1_zero {α : Type} (l : List α) : jsSlice1 l 0 = [] := by
  unfold jsSlice1
  rw [if_neg (by omega)]
  have h0 : ((min (0:ℤ) (l.length : ℤ)) - 1).toNat = 0 := by omega
  rw [h0, List.take_zero]

theorem reduceOption_map_all_some {α β : Type} (f : α → Option β) (g : α → β) :
    ∀ (l : List α), (∀ a ∈ l, f a = some (g a)) → (l.map f).reduceOption = l.map g := by
  intro l
  induction l with
  | nil => intro _; rfl
  | cons a l ih =>
    intro h
    rw [List.map_cons, h a (List.mem_cons_self a l), List.map_cons,
      List.reduceOption_cons_of_some, ih (fun x hx => h x (List.mem_cons_of_mem a hx))]

theorem set_self_of_get? {α : Type} :
    ∀ (l : List α) (n : ℕ) (a : α), l.get? n = some a → l.set n a = l
  | [], n, a => by simp
  | x :: l, 0, a => by
    intro h
    simp only [List.get?] at h
    simp [Option.some_inj.mp h]
  | x :: l, n + 1, a => by
    intro h
    simp only [List.get?] at h
    simp [set_self_of_get? l n a h]

theorem getChordById_id {dict : List Chord} {id : String} {c : Chord}
    (h : getChordById dict id = some c) : c.id = id := by
  unfold getChordById at h
  have h2 := List.find?_some h
  simpa using h2

theorem getChordById_mem {dict : List Chord} {id : String} {c : Chord}
    (h : getChordById dict id = some c) : c ∈ dict :=
  List.mem_of_find?_eq_some h

theorem distR_refl (x : DistChord) : distR x x := by
  unfold distR optLeB
  cases x.distance with
  | none => rfl
  | some q => simp

/-- The head of the stable-sorted annotated dictionary is the *first*
entry (in dictionary order) attaining the minimal key. -/
theorem sortByDistance_map_head (key : Chord → ℚ) (dict : List Chord) (h : dict ≠ []) :
    ∃ c l₁ l₂,
      (sortByDistance (dict.map (fun x => (⟨x, some (key x)⟩ : DistChord)))).head?
        = some ⟨c, some (key c)⟩
      ∧ dict = l₁ ++ c :: l₂
      ∧ (∀ y ∈ dict, key c ≤ key y)
      ∧ (∀ y ∈ l₁, key c < key y) := by
  classical
  set f : Chord → DistChord := (fun x => ⟨x, some (key x)⟩) with hf
  set ann := dict.map f with hann
  set m := sortByDistance ann with hm
  have hperm : m.Perm ann := sortByDistance_perm ann
  have hlen : m.length = dict.length := by rw [hperm.length_eq, hann, List.length_map]
  obtain ⟨x, rest, hxr⟩ : ∃ x rest, m = x :: rest := by
    cases hmm : m with
    | nil =>
      exfalso
      apply h
      apply List.length_eq_zero.mp
      rw [← hlen, hmm]
      rfl
    | cons a b => exact ⟨a, b, rfl⟩
  have hxann : x ∈ ann := hperm.mem_iff.mp (hxr ▸ List.mem_cons_self x rest)
  obtain ⟨c, hcdict, hfc⟩ := List.mem_map.mp hxann
  have hmin : ∀ y ∈ ann, distR x y := by
    intro y hy
    have hym : y ∈ m := hperm.mem_iff.mpr hy
    rw [hxr] at hym
    rcases List.mem_cons.mp hym with hyx | hyr
    · rw [hyx]; exact distR_refl x
    · have hpw := sortByDistance_pairwise ann
      rw [← hm, hxr] at hpw
      exact (List.pairwise_cons.mp hpw).1 y hyr
  have hminq : ∀ y ∈ dict, key c ≤ key y := by
    intro y hy
    have hd := hmin (f y) (List.mem_map_of_mem f hy)
    rw [← hfc] at hd
    simpa [distR, optLeB, hf] using hd
  set p : DistChord → Bool := (fun y => decide (y.distance = some (key c))) with hp
  have hstab := sortByDistance_filter p ann (by
    intro u v hu hv
    simp only [hp, decide_eq_true_eq] at hu hv
    unfold distR
    rw [hu, hv]
    simp [optLeB])
  have hx_p : p x = true := by
    rw [← hfc]
    simp [hp, hf]
  have hL : (m.filter p).head? = some x := by
    rw [hxr, List.filter_cons_of_pos hx_p]
    rfl
  have hR : (ann.filter p).head? = some x := by
    rw [← hstab, ← hm]
    exact hL
  rw [hann, List.filter_map] at hR
  cases hfd : dict.filter (p ∘ f) with
  | nil =>
    rw [hfd] at hR
    simp at hR
  | cons c₀ tl =>
    rw [hfd] at hR
    simp only [List.map_cons, List.head?_cons, Option.some_inj] at hR
    have hcc : c₀ = c := by
      have h2 : f c₀ = f c := by rw [hR, hfc]
      simpa [hf, Chord.mk.injEq] using congrArg DistChord.chord h2
    obtain ⟨l₁, l₂, hdec, hnot, hpc, htl⟩ := List.filter_eq_cons_iff.mp hfd
    refine ⟨c, l₁, l₂, ?_, ?_, hminq, ?_⟩
    · rw [hxr]
      simp only [List.head?_cons, Option.some_inj]
      rw [← hfc, hf]
    · rw [← hcc]; exact hdec
    · intro y hy
      have hne : ¬ (key y = key c) := by
        have h3 := hnot y hy
        simpa [hp, hf] using h3
      exact lt_of_le_of_ne (hminq y (hdec ▸ List.mem_append_left _ hy)) (fun he => hne he.symm)

/-- The elementwise characterization of `subtract`/`add` when `a` is at
most as long as `b` (no `NaN` entries arise). -/
theorem enumFrom_map_op (op : ℚ → ℚ → ℚ) :
    ∀ (a b : List ℚ) (n : ℕ), n + a.length ≤ b.length →
      (a.enumFrom n).map (fun p => (b.get? p.1).map (fun w => op p.2 w))
        = a.zipWith (fun x y => some (op x y)) (b.drop n) := by
  intro a
  induction a with
  | nil => intro b n _; simp
  | cons x xs ih =>
    intro b n hn
    have hnb : n < b.length := by simp at hn; omega
    rw [List.enumFrom_cons, List.map_cons]
    rw [List.drop_eq_getElem_cons hnb, List.zipWith_cons_cons]
    rw [List.get?_eq_getElem?, List.getElem?_eq_getElem hnb]
    rw [← ih b (n + 1) (by simp at hn ⊢; omega)]
    rfl

theorem subtract_eq_zipWith (a b : List ℚ) (h : a.length ≤ b.length) :
    subtract a b = a.zipWith (fun x y => some (x - y)) b := by
  unfold subtract
  have h2 := enumFrom_map_op (fun x y => x - y) a b 0 (by omega)
  rw [List.drop_zero] at h2
  exact h2

theorem add_eq_zipWith (a b : List ℚ) (h : a.length ≤ b.length) :
    add a b = a.zipWith (fun x y => some (x + y)) b := by
  unfold add
  have h2 := enumFrom_map_op (fun x y => x + y) a b 0 (by omega)
  rw [List.drop_zero] at h2
  exact h2

theorem subtract_length (a b : List ℚ) : (subtract a b).length = a.length := by
  simp [subtract]

theorem add_length (a b : List ℚ) : (add a b).length = a.length := by
  simp [add]

theorem scale_length (v : List ℚ) (t : ℚ) : (scale v t).length = v.length := by
  simp [scale]

/-- The midpointV `0.5·A + 0.5·C` as a plain vector
(specification-side helper used in theorem statements). -/
def midpointV (A C : List ℚ) : List ℚ :=
  A.zipWith (fun x y => x * 0.5 + y * 0.5) C

theorem midpointV_length (A C : List ℚ) :
    (midpointV A C).length = min A.length C.length := by
  simp [midpointV]

/-- For equal-length contexts the interpolated point of the source is the
(`NaN`-free) midpointV vector. -/
theorem add_scale_half (A C : List ℚ) (h : A.length = C.length) :
    add (scale A 0.5) (scale C 0.5) = liftV (midpointV A C) := by
  rw [add_eq_zipWith (scale A 0.5) (scale C 0.5) (by rw [scale_length, scale_length, h])]
  unfold scale midpointV liftV
  rw [List.zipWith_map (fun x y => some (x + y)) (fun v => v * 0.5) (fun v => v * 0.5) A C]
  rw [List.map_zipWith]

theorem sortByDistance_nil : sortByDistance [] = [] := rfl

/-- Full behaviour of the Linear strategy under a uniform dimension:
the midpoint geometry, the first global distance minimizer as the
substituted id, and the empty-dictionary fallback. -/
theorem linearInterpolation_spec (dict : List Chord) (A C : Chord) (D : ℕ)
    (hA : A.z.length = D) (hC : C.z.length = D) (hd : ∀ c ∈ dict, c.z.length = D) :
    (dict = [] → linearInterpolation dict A C = .ok ⟨C.id, liftV (midpointV A.z C.z)⟩)
    ∧ (dict ≠ [] → ∃ c l₁ l₂,
        dict = l₁ ++ c :: l₂
        ∧ linearInterpolation dict A C = .ok ⟨c.id, liftV (midpointV A.z C.z)⟩
        ∧ (∀ y ∈ dict, sqDist (midpointV A.z C.z) c.z ≤ sqDist (midpointV A.z C.z) y.z)
        ∧ (∀ y ∈ l₁, sqDist (midpointV A.z C.z) c.z < sqDist (midpointV A.z C.z) y.z)) := by
  have hM : add (scale A.z 0.5) (scale C.z 0.5) = liftV (midpointV A.z C.z) :=
    add_scale_half A.z C.z (hA.trans hC.symm)
  have hMlen : (midpointV A.z C.z).length = D := by
    rw [midpointV_length, hA, hC]
    simp
  constructor
  · intro hnil
    subst hnil
    unfold linearInterpolation
    rw [hM]
    rfl
  · intro hne
    obtain ⟨c, l₁, l₂, hhead, hdec, hmin, hstrict⟩ :=
      sortByDistance_map_head (fun c => sqDist (midpointV A.z C.z) c.z) dict hne
    refine ⟨c, l₁, l₂, hdec, ?_, hmin, hstrict⟩
    unfold linearInterpolation
    rw [hM]
    dsimp only
    rw [distances_ok (midpointV A.z C.z) dict D hMlen hd]
    show (match (sortByDistance (dict.map
        (fun c => ⟨c, some (sqDist (midpointV A.z C.z) c.z)⟩))).head? with
      | some nearestChord => Except.ok (⟨nearestChord.chord.id, liftV (midpointV A.z C.z)⟩ : LinResult)
      | none => Except.ok ⟨C.id, liftV (midpointV A.z C.z)⟩) = _
    rw [hhead]

theorem sqDist_nonneg (a b : List ℚ) : 0 ≤ sqDist a b := by
  apply List.sum_nonneg
  intro x hx
  obtain ⟨p, _, hpx⟩ := List.mem_map.mp hx
  rw [← hpx]
  exact mul_self_nonneg _

theorem sqDist_self (a : List ℚ) : sqDist a a = 0 := by
  induction a with
  | nil => rfl
  | cons x xs ih =>
    unfold sqDist at ih ⊢
    rw [List.zip_cons_cons, List.map_cons, List.sum_cons, ih]
    simp

theorem sqDist_eq_zero {a b : List ℚ} (hlen : a.length = b.length)
    (h : sqDist a b = 0) : a = b := by
  induction a generalizing b with
  | nil =>
    cases b with
    | nil => rfl
    | cons y ys => simp at hlen
  | cons x xs ih =>
    cases b with
    | nil => simp at hlen
    | cons y ys =>
      unfold sqDist at h
      rw [List.zip_cons_cons, List.map_cons, List.sum_cons] at h
      have hfold : (List.map (fun p => (p.1 - p.2) * (p.1 - p.2)) (xs.zip ys)).sum
          = sqDist xs ys := rfl
      simp only [hfold] at h
      have h1 : (0:ℚ) ≤ (x - y) * (x - y) := mul_self_nonneg _
      have h2 : (0:ℚ) ≤ sqDist xs ys := sqDist_nonneg xs ys
      have hx1 : (x - y) * (x - y) = 0 := by linarith
      have hx2 : sqDist xs ys = 0 := by linarith
      have hxy : x = y := by
        have h3 := mul_self_eq_zero.mp hx1
        linarith [sub_eq_zero.mp h3]
      rw [hxy, ih (by simpa using hlen) hx2]

/-- Full behaviour of `kNearest` for `k ≥ 0` under a uniform dimension:
the annotated list is stable-sorted, the first (self-match) entry
dropped, and the next `k` returned. -/
theorem knn_spec (v : List ℚ) (dict : List Chord) (k : ℤ) (D : ℕ) (hk : 0 ≤ k)
    (hv : v.length = D) (hd : ∀ c ∈ dict, c.z.length = D) :
    ∃ (res : List DistChord) (sorted : List DistChord),
      knn v dict k ("euclidean") = .ok res
      ∧ sorted.Perm (dict.map (fun c => ⟨c, some (sqDist v c.z)⟩))
      ∧ sorted.Pairwise distR
      ∧ (∀ d : ℚ, sorted.filter (fun x => decide (x.distance = some d))
          = (dict.map (fun c => (⟨c, some (sqDist v c.z)⟩ : DistChord))).filter
              (fun x => decide (x.distance = some d)))
      ∧ res = (sorted.drop 1).take k.toNat
      ∧ res.length = min k.toNat (dict.length - 1)
      ∧ res.Pairwise distR
      ∧ (∀ x ∈ res, x.chord ∈ dict ∧ x.distance = some (sqDist v x.chord.z)) := by
  set ann := dict.map (fun c => (⟨c, some (sqDist v c.z)⟩ : DistChord)) with hann
  set sorted := sortByDistance ann with hsorted
  set res := (sorted.drop 1).take k.toNat with hres
  have hknn : knn v dict k ("euclidean") = .ok res := by
    rw [knn_ok v dict k D hv hd, jsSlice1_nonneg (sortByDistance ann) k hk]
  have hsub : res.Sublist sorted :=
    ((sorted.drop 1).take_sublist k.toNat).trans (sorted.drop_sublist 1)
  refine ⟨res, sorted, hknn, sortByDistance_perm ann, sortByDistance_pairwise ann,
    ?_, rfl, ?_, ?_, ?_⟩
  · intro d
    apply sortByDistance_filter
    intro x y hx hy
    simp only [decide_eq_true_eq] at hx hy
    unfold distR
    rw [hx, hy]
    simp [optLeB]
  · have hlen : sorted.length = dict.length := by
      rw [(sortByDistance_perm ann).length_eq, hann, List.length_map]
    rw [hres, List.length_take, List.length_drop, hlen]
  · exact (sortByDistance_pairwise ann).sublist hsub
  · intro x hx
    have hxs : x ∈ sorted := hsub.mem hx
    have hxa : x ∈ ann := (sortByDistance_perm ann).mem_iff.mp hxs
    obtain ⟨c, hc, hcx⟩ := List.mem_map.mp hxa
    rw [← hcx]
    exact ⟨hc, rfl⟩

/-- Self-exclusion of `kNearest`, valid when exactly one dictionary entry
sits at the query point. -/
theorem knn_self_exclusion (v : List ℚ) (dict : List Chord) (k : ℤ) (D : ℕ) (hk : 0 ≤ k)
    (hv : v.length = D) (hd : ∀ c ∈ dict, c.z.length = D)
    (huniq : dict.countP (fun c => decide (c.z = v)) = 1) :
    ∀ res, knn v dict k ("euclidean") = .ok res → ∀ x ∈ res, x.chord.z ≠ v := by
  obtain ⟨res, sorted, hknn, hperm, hpw, hstab, hres, hlen, hrespw, hmem⟩ :=
    knn_spec v dict k D hk hv hd
  intro res' hres' x hx
  rw [hknn] at hres'
  obtain rfl : res = res' := by
    cases hres'
    rfl
  set p₀ : DistChord → Bool := (fun x => decide (x.distance = some 0)) with hp₀
  have hcnt_ann : (dict.map (fun c => (⟨c, some (sqDist v c.z)⟩ : DistChord))).countP p₀ = 1 := by
    rw [List.countP_map, ← huniq]
    apply List.countP_congr
    intro c hc
    show (decide (some (sqDist v c.z) = some (0:ℚ)) = true) ↔ (decide (c.z = v) = true)
    simp only [decide_eq_true_eq, Option.some_inj]
    constructor
    · intro h0
      exact (sqDist_eq_zero (by rw [hv, hd c hc]) h0).symm
    · intro h0
      rw [h0, sqDist_self]
  have hcnt_sorted : sorted.countP p₀ = 1 := by rw [hperm.countP_eq, hcnt_ann]
  obtain ⟨x₀, rest, hx₀⟩ : ∃ x₀ rest, sorted = x₀ :: rest := by
    cases hs : sorted with
    | nil => rw [hs] at hcnt_sorted; simp at hcnt_sorted
    | cons a b => exact ⟨a, b, rfl⟩
  have hx₀p : p₀ x₀ = true := by
    have hw : ∃ w ∈ sorted, p₀ w = true := by
      by_contra hno
      push_neg at hno
      have : sorted.countP p₀ = 0 := by
        apply List.countP_eq_zero.mpr
        intro a ha
        simp [hno a ha]
      omega
    obtain ⟨w, hwmem, hwp⟩ := hw
    rw [hx₀] at hwmem
    rcases List.mem_cons.mp hwmem with hwx | hwr
    · rw [← hwx]; exact hwp
    · have hdistr : distR x₀ w := by
        rw [hx₀] at hpw
        exact (List.pairwise_cons.mp hpw).1 w hwr
      have hx₀ann : x₀ ∈ dict.map (fun c => (⟨c, some (sqDist v c.z)⟩ : DistChord)) :=
        hperm.mem_iff.mp (hx₀ ▸ List.mem_cons_self x₀ rest)
      obtain ⟨c, hc, hcx⟩ := List.mem_map.mp hx₀ann
      have hwq : w.distance = some 0 := by
        simpa [hp₀] using hwp
      have hq : x₀.distance = some (sqDist v c.z) := by rw [← hcx]
      unfold distR optLeB at hdistr
      rw [hq, hwq] at hdistr
      simp only [decide_eq_true_eq] at hdistr
      have hge : 0 ≤ sqDist v c.z := sqDist_nonneg v c.z
      have : sqDist v c.z = 0 := le_antisymm hdistr hge
      simp [hp₀, hq, this]
  have hrest : rest.countP p₀ = 0 := by
    rw [hx₀, List.countP_cons, hx₀p] at hcnt_sorted
    simpa using hcnt_sorted
  have hxrest : x ∈ rest := by
    have : x ∈ (sorted.drop 1).take k.toNat := hres ▸ hx
    have h2 : x ∈ sorted.drop 1 := (List.take_sublist _ _).mem this
    rw [hx₀] at h2
    simpa using h2
  have hxnot : p₀ x = false := by
    rcases Bool.eq_false_or_eq_true (p₀ x) with h | h
    · exfalso
      have hpos : 0 < rest.countP p₀ := List.countP_pos_iff.mpr ⟨x, hxrest, h⟩
      omega
    · exact h
  obtain ⟨hcd, hdist⟩ := hmem x hx
  intro hzv
  simp only [hp₀, hdist, decide_eq_false_iff_not, Option.some_inj] at hxnot
  apply hxnot
  rw [hzv, sqDist_self]

/-! ## Order properties of the symbolic angle comparison -/

/-- Well-formed symbolic angles: the ones `angleBetween` can produce on
`NaN`-free vectors (`nanV` excluded, positive radicand). -/
def JSAngle.wf : JSAngle → Prop
  | .acosOf _ s => 0 < s
  | .posInf => True
  | .nanV => False

theorem cosGtB_iff (d₁ s₁ d₂ s₂ : ℚ) (h₁ : 0 < s₁) (h₂ : 0 < s₂) :
    cosGtB d₁ s₁ d₂ s₂ = true
      ↔ (d₂ : ℝ) / Real.sqrt (s₂ : ℝ) < (d₁ : ℝ) / Real.sqrt (s₁ : ℝ) := by
  have hr₁ : (0:ℝ) < Real.sqrt (s₁ : ℝ) := Real.sqrt_pos.mpr (by exact_mod_cast h₁)
  have hr₂ : (0:ℝ) < Real.sqrt (s₂ : ℝ) := Real.sqrt_pos.mpr (by exact_mod_cast h₂)
  have hs₁ : Real.sqrt (s₁ : ℝ) * Real.sqrt (s₁ : ℝ) = (s₁:ℝ) :=
    Real.mul_self_sqrt (by positivity)
  have hs₂ : Real.sqrt (s₂ : ℝ) * Real.sqrt (s₂ : ℝ) = (s₂:ℝ) :=
    Real.mul_self_sqrt (by positivity)
  rw [div_lt_div_iff hr₂ hr₁]
  unfold cosGtB
  by_cases hd₁ : 0 ≤ d₁
  · rw [if_pos hd₁, Bool.or_eq_true, decide_eq_true_eq, decide_eq_true_eq]
    have hd₁r : (0:ℝ) ≤ (d₁:ℝ) := by exact_mod_cast hd₁
    by_cases hd₂ : d₂ < 0
    · have hd₂r : (d₂:ℝ) < 0 := by exact_mod_cast hd₂
      constructor
      · intro _
        have e₁ : (d₂:ℝ) * Real.sqrt (s₁:ℝ) < 0 := mul_neg_of_neg_of_pos hd₂r hr₁
        have e₂ : (0:ℝ) ≤ (d₁:ℝ) * Real.sqrt (s₂:ℝ) := mul_nonneg hd₁r hr₂.le
        linarith
      · intro _
        exact Or.inl hd₂
    · push_neg at hd₂
      have hd₂r : (0:ℝ) ≤ (d₂:ℝ) := by exact_mod_cast hd₂
      constructor
      · intro h
        rcases h with h | h
        · exact absurd h (not_lt.mpr hd₂)
        · have hr : ((d₂:ℝ))^2 * s₁ < ((d₁:ℝ))^2 * s₂ := by exact_mod_cast h
          rw [← hs₁, ← hs₂] at hr
          nlinarith [mul_nonneg hd₂r hr₁.le, mul_nonneg hd₁r hr₂.le]
      · intro h
        refine Or.inr ?_
        have hr : ((d₂:ℝ))^2 * ((s₁:ℝ)) < ((d₁:ℝ))^2 * ((s₂:ℝ)) := by
          rw [← hs₁, ← hs₂]
          nlinarith [mul_nonneg hd₂r hr₁.le]
        exact_mod_cast hr
  · rw [if_neg hd₁, Bool.and_eq_true, decide_eq_true_eq, decide_eq_true_eq]
    push_neg at hd₁
    have hd₁r : (d₁:ℝ) < 0 := by exact_mod_cast hd₁
    by_cases hd₂ : d₂ < 0
    · have hd₂r : (d₂:ℝ) < 0 := by exact_mod_cast hd₂
      constructor
      · intro h
        have hr : ((d₁:ℝ))^2 * s₂ < ((d₂:ℝ))^2 * s₁ := by exact_mod_cast h.2
        rw [← hs₁, ← hs₂] at hr
        nlinarith [mul_pos (neg_pos.mpr hd₂r) hr₁, mul_pos (neg_pos.mpr hd₁r) hr₂]
      · intro h
        refine ⟨hd₂, ?_⟩
        have hr : ((d₁:ℝ))^2 * ((s₂:ℝ)) < ((d₂:ℝ))^2 * ((s₁:ℝ)) := by
          rw [← hs₁, ← hs₂]
          nlinarith [mul_pos (neg_pos.mpr hd₂r) hr₁, mul_pos (neg_pos.mpr hd₁r) hr₂]
        exact_mod_cast hr
    · push_neg at hd₂
      have hd₂r : (0:ℝ) ≤ (d₂:ℝ) := by exact_mod_cast hd₂
      constructor
      · intro h
        exact absurd h.1 (not_lt.mpr hd₂)
      · intro h
        exfalso
        have e₁ : (d₁:ℝ) * Real.sqrt (s₂:ℝ) < 0 := mul_neg_of_neg_of_pos hd₁r hr₂
        have e₂ : (0:ℝ) ≤ (d₂:ℝ) * Real.sqrt (s₁:ℝ) := mul_nonneg hd₂r hr₁.le
        linarith

theorem ltB_irrefl (a : JSAngle) : a.ltB a = false := by
  cases a with
  | acosOf d s =>
    show cosGtB d s d s = false
    unfold cosGtB
    by_cases hd : 0 ≤ d
    · rw [if_pos hd]
      simp [not_lt.mpr hd, lt_irrefl]
    · rw [if_neg hd]
      simp [lt_irrefl]
  | posInf => rfl
  | nanV => rfl

theorem ltB_trans {a b c : JSAngle} (ha : a.wf) (hb : b.wf) (hc : c.wf)
    (h₁ : a.ltB b = true) (h₂ : b.ltB c = true) : a.ltB c = true := by
  cases a with
  | nanV => exact absurd ha id
  | posInf => exact absurd h₁ (by simp [JSAngle.ltB])
  | acosOf d₁ s₁ =>
    cases c with
    | nanV => exact absurd hc id
    | posInf => rfl
    | acosOf d₃ s₃ =>
      cases b with
      | nanV => exact absurd hb id
      | posInf => exact absurd h₂ (by simp [JSAngle.ltB])
      | acosOf d₂ s₂ =>
        show cosGtB d₁ s₁ d₃ s₃ = true
        have e₁ := (cosGtB_iff d₁ s₁ d₂ s₂ ha hb).mp h₁
        have e₂ := (cosGtB_iff d₂ s₂ d₃ s₃ hb hc).mp h₂
        exact (cosGtB_iff d₁ s₁ d₃ s₃ ha hc).mpr (lt_trans e₂ e₁)

theorem ltB_weak {a b c : JSAngle} (ha : a.wf) (hb : b.wf) (hc : c.wf)
    (h₁ : a.ltB b = true) (h₂ : c.ltB b = false) : a.ltB c = true := by
  cases a with
  | nanV => exact absurd ha id
  | posInf => exact absurd h₁ (by simp [JSAngle.ltB])
  | acosOf d₁ s₁ =>
    cases c with
    | nanV => exact absurd hc id
    | posInf => rfl
    | acosOf d₃ s₃ =>
      cases b with
      | nanV => exact absurd hb id
      | posInf => exact absurd h₂ (by simp [JSAngle.ltB])
      | acosOf d₂ s₂ =>
        show cosGtB d₁ s₁ d₃ s₃ = true
        have e₁ := (cosGtB_iff d₁ s₁ d₂ s₂ ha hb).mp h₁
        have e₂ : ¬ ((d₂:ℝ) / Real.sqrt (s₂:ℝ) < (d₃:ℝ) / Real.sqrt (s₃:ℝ)) := by
          intro hlt
          rw [← cosGtB_iff d₃ s₃ d₂ s₂ hc hb] at hlt
          rw [show JSAngle.ltB (.acosOf d₃ s₃) (.acosOf d₂ s₂) = cosGtB d₃ s₃ d₂ s₂ from rfl]
            at h₂
          rw [h₂] at hlt
          exact Bool.false_ne_true hlt
        exact (cosGtB_iff d₁ s₁ d₃ s₃ ha hc).mpr (lt_of_le_of_lt (not_lt.mp e₂) e₁)

/-! ## NaN-free evaluation of the angle pipeline -/

/-- Plain elementwise difference (specification-side helper). -/
def vSub (a b : List ℚ) : List ℚ := a.zipWith (fun x y => x - y) b

/-- Sum of squares of a plain vector (the radicand of `magnitude`). -/
def sumSq (w : List ℚ) : ℚ := (w.map (fun x => x * x)).sum

/-- Plain dot product (specification-side helper). -/
def dotQ (a b : List ℚ) : ℚ := ((a.zip b).map (fun p => p.1 * p.2)).sum

theorem sumSq_nonneg (w : List ℚ) : 0 ≤ sumSq w := by
  apply List.sum_nonneg
  intro x hx
  obtain ⟨p, _, hpx⟩ := List.mem_map.mp hx
  rw [← hpx]
  exact mul_self_nonneg _

theorem subtract_lift (a b : List ℚ) (h : a.length ≤ b.length) :
    subtract a b = liftV (vSub a b) := by
  rw [subtract_eq_zipWith a b h]
  unfold liftV vSub
  rw [List.map_zipWith]

theorem magnitude_lift (w : List ℚ) : magnitude (liftV w) = some (sumSq w) := by
  unfold magnitude liftV
  rw [List.foldl_map]
  have hfun : (fun (sum : JSNum) (x : ℚ) => jsAdd sum (jsMul (some x) (some x)))
      = fun (sum : JSNum) (x : ℚ) => jsAdd sum (some (x * x)) := by
    funext sum x
    rfl
  rw [hfun, foldl_jsAdd_some (fun x => x * x) w 0, sumSq, zero_add]

theorem dotAux (b : List ℚ) :
    ∀ (a : List ℚ) (n : ℕ) (q : ℚ), n + a.length ≤ b.length →
      ((a.map some).enumFrom n).foldl
          (fun sum p => jsAdd sum (jsMul p.2 (((liftV b).get? p.1).join))) (some q)
        = some (q + ((a.zip (b.drop n)).map (fun p => p.1 * p.2)).sum) := by
  intro a
  induction a with
  | nil => intro n q _; simp
  | cons x xs ih =>
    intro n q hn
    have hnb : n < b.length := by simp at hn; omega
    rw [List.map_cons, List.enumFrom_cons, List.foldl_cons]
    have hget : ((liftV b).get? n).join = some b[n] := by
      unfold liftV
      rw [List.get?_map, List.get?_eq_getElem?, List.getElem?_eq_getElem hnb]
      rfl
    rw [show (jsAdd (some q) (jsMul (some x) (((liftV b).get? n).join)))
        = some (q + x * b[n]) by rw [hget]; rfl]
    rw [ih (n + 1) (q + x * b[n]) (by simp at hn ⊢; omega)]
    rw [List.drop_eq_getElem_cons hnb, List.zip_cons_cons, List.map_cons, List.sum_cons,
      add_assoc]

theorem dotProduct_lift (a b : List ℚ) (h : a.length ≤ b.length) :
    dotProduct (liftV a) (liftV b) = some (dotQ a b) := by
  unfold dotProduct
  show ((a.map some).enumFrom 0).foldl _ (some 0) = _
  rw [dotAux b a 0 0 (by omega), List.drop_zero, zero_add, dotQ]

theorem angleBetween_lift (a b : List ℚ) (h : a.length = b.length) :
    angleBetween (liftV a) (liftV b)
      = if sumSq a = 0 ∨ sumSq b = 0 then .posInf
        else .acosOf (dotQ a b) (sumSq a * sumSq b) := by
  unfold angleBetween
  rw [dotProduct_lift a b h.le, magnitude_lift a, magnitude_lift b]
  simp only [Option.some_inj]

theorem angleBetween_lift_wf (a b : List ℚ) (h : a.length = b.length) :
    (angleBetween (liftV a) (liftV b)).wf := by
  rw [angleBetween_lift a b h]
  by_cases hz : sumSq a = 0 ∨ sumSq b = 0
  · rw [if_pos hz]
    exact trivial
  · rw [if_neg hz]
    push_neg at hz
    show 0 < sumSq a * sumSq b
    have h₁ : 0 < sumSq a := lt_of_le_of_ne (sumSq_nonneg a) (Ne.symm hz.1)
    have h₂ : 0 < sumSq b := lt_of_le_of_ne (sumSq_nonneg b) (Ne.symm hz.2)
    exact mul_pos h₁ h₂

/-- Invariant of the `forEach` best-angle accumulation of
`knnAngularAlignment`, stated over the processed part of the candidate
list and the running `(bestAngle, bestCandidate)` state. -/
def FoldInv {α : Type} (key : α → JSAngle) (processed : List α) :
    JSAngle × Option α → Prop
  | (ba, none) => ba = .posInf ∧ ∀ m ∈ processed, (key m).ltB .posInf = false
  | (ba, some c) =>
      (∃ l₁ l₂, processed = l₁ ++ c :: l₂
        ∧ (∀ m ∈ l₁, (key c).ltB (key m) = true))
      ∧ ba = key c
      ∧ (∀ m ∈ processed, (key m).ltB ba = false)
      ∧ (∃ d s, key c = .acosOf d s)

theorem foldInv_step {α : Type} (key : α → JSAngle) (processed : List α)
    (st : JSAngle × Option α) (x : α)
    (hwx : (key x).wf) (hwp : ∀ m ∈ processed, (key m).wf)
    (hinv : FoldInv key processed st) :
    FoldInv key (processed ++ [x])
      (if (key x).ltB st.1 then (key x, some x) else st) := by
  obtain ⟨ba, bc⟩ := st
  by_cases hif : (key x).ltB ba = true
  · rw [show ((key x).ltB (ba, bc).1) = ((key x).ltB ba) from rfl, if_pos hif]
    have hbawf : ba.wf := by
      cases bc with
      | none => rw [hinv.1]; exact trivial
      | some c =>
        obtain ⟨⟨l₁, l₂, hdec, _⟩, hba, _, _⟩ := hinv
        rw [hba]
        exact hwp c (hdec ▸ List.mem_append_right l₁ (List.mem_cons_self c l₂))
    have hprev : ∀ m ∈ processed, (key m).ltB ba = false := by
      cases bc with
      | none => rw [hinv.1]; exact hinv.2
      | some c => exact hinv.2.2.1
    have hkx_acos : ∃ d s, key x = .acosOf d s := by
      cases hk : key x with
      | acosOf d s => exact ⟨d, s, rfl⟩
      | posInf => rw [hk] at hif; exact absurd hif (by simp [JSAngle.ltB])
      | nanV => rw [hk] at hif; exact absurd hif (by simp [JSAngle.ltB])
    refine ⟨⟨processed, [], by simp, ?_⟩, rfl, ?_, hkx_acos⟩
    · intro m hm
      exact ltB_weak hwx hbawf (hwp m hm) hif (hprev m hm)
    · intro m hm
      rcases List.mem_append.mp hm with hm | hm
      · rcases Bool.eq_false_or_eq_true ((key m).ltB (key x)) with h | h
        · exfalso
          have htr := ltB_trans (hwp m hm) hwx hbawf h hif
          rw [hprev m hm] at htr
          exact Bool.false_ne_true htr
        · exact h
      · rw [List.mem_singleton.mp hm]
        exact ltB_irrefl (key x)
  · rw [show ((key x).ltB (ba, bc).1) = ((key x).ltB ba) from rfl,
      if_neg (by rw [Bool.not_eq_true] at hif ⊢; exact hif)]
    have hif' : (key x).ltB ba = false := Bool.not_eq_true _ ▸ Bool.eq_false_iff.mpr hif
    cases bc with
    | none =>
      obtain ⟨hba, hall⟩ := hinv
      refine ⟨hba, ?_⟩
      intro m hm
      rcases List.mem_append.mp hm with hm | hm
      · exact hall m hm
      · rw [List.mem_singleton.mp hm, ← hba]
        exact hif'
    | some c =>
      obtain ⟨⟨l₁, l₂, hdec, hstrict⟩, hba, hall, hacos⟩ := hinv
      refine ⟨⟨l₁, l₂ ++ [x], by rw [hdec]; simp, hstrict⟩, hba, ?_, hacos⟩
      intro m hm
      rcases List.mem_append.mp hm with hm | hm
      · exact hall m hm
      · rw [List.mem_singleton.mp hm]
        exact hif'

theorem foldMin_inv {α : Type} (key : α → JSAngle) :
    ∀ (l : List α) (processed : List α) (st : JSAngle × Option α),
      (∀ x ∈ l, (key x).wf) → (∀ x ∈ processed, (key x).wf) →
      FoldInv key processed st →
      FoldInv key (processed ++ l)
        (l.foldl (fun best candidate =>
          if (key candidate).ltB best.1 then (key candidate, some candidate) else best) st) := by
  intro l
  induction l with
  | nil =>
    intro processed st _ _ hinv
    simpa using hinv
  | cons x xs ih =>
    intro processed st hwl hwp hinv
    rw [List.foldl_cons]
    have hstep := foldInv_step key processed st x (hwl x (List.mem_cons_self x xs))
      hwp hinv
    have happ : processed ++ x :: xs = (processed ++ [x]) ++ xs := by simp
    rw [happ]
    apply ih (processed ++ [x]) _ (fun y hy => hwl y (List.mem_cons_of_mem x hy))
    · intro y hy
      rcases List.mem_append.mp hy with hy | hy
      · exact hwp y hy
      · rw [List.mem_singleton.mp hy]
        exact hwl x (List.mem_cons_self x xs)
    · exact hstep

/-- The angle the loop body of `knnAngularAlignment` assigns to a
candidate (specification-side abbreviation of the loop body). -/
def angleOf (A B : Chord) (c : DistChord) : JSAngle :=
  angleBetween (subtract B.z A.z) (subtract c.chord.z A.z)

/-- Members of a `knn` result come from the dictionary, annotated with
their squared distance (no nonnegativity assumption on `k`). -/
theorem knn_mem (v : List ℚ) (dict : List Chord) (k : ℤ) (D : ℕ)
    (hv : v.length = D) (hd : ∀ c ∈ dict, c.z.length = D) :
    ∀ nb, knn v dict k ("euclidean") = .ok nb →
      ∀ x ∈ nb, x.chord ∈ dict ∧ x.distance = some (sqDist v x.chord.z) := by
  intro nb hnb x hx
  rw [knn_ok v dict k D hv hd] at hnb
  have hnb' : nb = jsSlice1 (sortByDistance
      (dict.map (fun c => ⟨c, some (sqDist v c.z)⟩))) (k + 1) := by
    cases hnb
    rfl
  have hxs : x ∈ sortByDistance (dict.map (fun c => (⟨c, some (sqDist v c.z)⟩ : DistChord))) := by
    rw [hnb'] at hx
    unfold jsSlice1 at hx
    exact (List.drop_sublist 1 _).mem ((List.take_sublist _ _).mem hx)
  have hxa := (sortByDistance_perm _).mem_iff.mp hxs
  obtain ⟨c, hc, hcx⟩ := List.mem_map.mp hxa
  rw [← hcx]
  exact ⟨hc, rfl⟩

theorem angleOf_wf (A B : Chord) (c : DistChord) (D : ℕ)
    (hA : A.z.length = D) (hB : B.z.length = D) (hc : c.chord.z.length = D) :
    (angleOf A B c).wf := by
  unfold angleOf
  rw [subtract_lift B.z A.z (by omega), subtract_lift c.chord.z A.z (by omega)]
  apply angleBetween_lift_wf
  unfold vSub
  simp only [List.length_zipWith]
  omega

/-- Full behaviour of the Angular strategy under a uniform dimension. -/
theorem knnAngularAlignment_spec (dict : List Chord) (A B : Chord) (k : ℤ) (D : ℕ)
    (hA : A.z.length = D) (hB : B.z.length = D) (hd : ∀ c ∈ dict, c.z.length = D) :
    ∀ nb, knn B.z dict k ("euclidean") = .ok nb →
    ∃ res, knnAngularAlignment dict A B k = .ok res
      ∧ res.kNeighbors = nb
      ∧ (nb = [] → res.id = B.id)
      ∧ ((∀ c ∈ nb, angleOf A B c = .posInf) → res.id = B.id)
      ∧ ((∃ c ∈ nb, angleOf A B c ≠ .posInf) →
          ∃ c ∈ nb, res.id = c.chord.id
            ∧ angleOf A B c ≠ .posInf
            ∧ (∀ m ∈ nb, (angleOf A B m).ltB (angleOf A B c) = false)
            ∧ ∃ l₁ l₂, nb = l₁ ++ c :: l₂
                ∧ (∀ m ∈ l₁, (angleOf A B c).ltB (angleOf A B m) = true)) := by
  intro nb hnb
  have hwf : ∀ c ∈ nb, (angleOf A B c).wf := by
    intro c hc
    exact angleOf_wf A B c D hA hB
      (hd c.chord ((knn_mem B.z dict k D hB hd nb hnb c hc).1))
  have hfold := foldMin_inv (angleOf A B) nb [] ((JSAngle.posInf, none) : JSAngle × Option DistChord)
    hwf (by intro x hx; exact absurd hx (List.not_mem_nil x)) ⟨rfl, by intro m hm; exact absurd hm (List.not_mem_nil m)⟩
  rw [List.nil_append] at hfold
  have hgoal : knnAngularAlignment dict A B k
      = (match (nb.foldl (fun best candidate =>
            if ((angleOf A B candidate).ltB best.1) then (angleOf A B candidate, some candidate)
            else best) ((JSAngle.posInf, none) : JSAngle × Option DistChord)).2 with
        | some bc => Except.ok (⟨bc.chord.id, nb⟩ : AngResult)
        | none => Except.ok (⟨B.id, nb⟩ : AngResult)) := by
    unfold knnAngularAlignment
    rw [hnb]
    rfl
  rcases hstp : nb.foldl (fun best candidate =>
      if ((angleOf A B candidate).ltB best.1) then (angleOf A B candidate, some candidate)
      else best) ((JSAngle.posInf, none) : JSAngle × Option DistChord) with ⟨ba, bc⟩
  rw [hstp] at hfold hgoal
  cases bc with
  | none =>
    obtain ⟨hba, hall⟩ := hfold
    refine ⟨⟨B.id, nb⟩, hgoal, rfl, fun _ => rfl, fun _ => rfl, ?_⟩
    rintro ⟨c, hcnb, hcne⟩
    exfalso
    have hwc := hwf c hcnb
    cases hk : angleOf A B c with
    | nanV => rw [hk] at hwc; exact hwc
    | posInf => exact hcne hk
    | acosOf d s =>
      have h1 := hall c hcnb
      rw [hk] at h1
      exact Bool.false_ne_true (h1 ▸ rfl)
  | some bc =>
    obtain ⟨⟨l₁, l₂, hdec, hstrict⟩, hba, hall, d, sv, hacos⟩ := hfold
    have hmemb : bc ∈ nb := hdec ▸ List.mem_append_right l₁ (List.mem_cons_self bc l₂)
    refine ⟨⟨bc.chord.id, nb⟩, hgoal, rfl, ?_, ?_, ?_⟩
    · intro hnil
      rw [hnil] at hdec
      exact absurd hdec.symm (List.append_ne_nil_of_right_ne_nil l₁ (List.cons_ne_nil bc l₂))
    · intro hallinf
      exfalso
      have h1 := hallinf bc hmemb
      rw [hacos] at h1
      exact JSAngle.noConfusion h1
    · intro _
      refine ⟨bc, hmemb, rfl, ?_, ?_, l₁, l₂, hdec, hstrict⟩
      · rw [hacos]
        intro h1
        exact JSAngle.noConfusion h1
      · rw [← hba]
        exact hall

/-! ## Evaluation of the orchestrator -/

/-- The chord a resolvable id denotes (specification-side helper; only
used under the hypothesis that the id resolves). -/
def resolve (dict : List Chord) (id : String) : Chord :=
  (getChordById dict id).getD ⟨id, []⟩

theorem resolve_full (dict : List Chord) (phrase : List String)
    (hres : ∀ id ∈ phrase, (getChordById dict id).isSome) :
    (phrase.map (getChordById dict)).reduceOption = phrase.map (resolve dict) := by
  apply reduceOption_map_all_some
  intro id hid
  have h := hres id hid
  unfold resolve
  cases hgc : getChordById dict id with
  | none => rw [hgc] at h; exact absurd h (by simp)
  | some c => rfl

theorem mem_fullPhrase_dict {dict : List Chord} {phrase : List String} {x : Chord}
    (hx : x ∈ (phrase.map (getChordById dict)).reduceOption) : x ∈ dict := by
  have h := List.reduceOption_mem_iff.mp hx
  obtain ⟨id, _, hid⟩ := List.mem_map.mp h
  exact getChordById_mem hid

/-- The empty (no-op) details record. -/
def emptyDetails (strategy : String) : SubstitutionDetails :=
  ⟨strategy, none, none, none, none, [], []⟩

theorem substitutePhrase_gate_fail (dict : List Chord) (phrase : List String) (i : ℤ)
    (strategy : String) (pk : Option ℤ)
    (hfail : ¬ (0 < i ∧ i < (phrase.length : ℤ) - 1)) :
    substitutePhrase dict phrase [i] strategy pk = .ok ⟨phrase, emptyDetails strategy⟩ := by
  unfold substitutePhrase
  dsimp only
  rw [if_neg hfail]
  rfl

theorem substitutePhrase_ctx_missing (dict : List Chord) (phrase : List String) (i : ℤ)
    (strategy : String) (pk : Option ℤ)
    (hgate : 0 < i ∧ i < (phrase.length : ℤ) - 1)
    (hmiss : ((phrase.map (getChordById dict)).reduceOption).get? (i - 1).toNat = none
      ∨ ((phrase.map (getChordById dict)).reduceOption).get? i.toNat = none
      ∨ ((phrase.map (getChordById dict)).reduceOption).get? (i + 1).toNat = none) :
    substitutePhrase dict phrase [i] strategy pk = .ok ⟨phrase, emptyDetails strategy⟩ := by
  unfold substitutePhrase
  dsimp only
  rw [if_pos hgate]
  cases h1 : ((phrase.map (getChordById dict)).reduceOption).get? (i - 1).toNat with
  | none => rfl
  | some A =>
    cases h2 : ((phrase.map (getChordById dict)).reduceOption).get? i.toNat with
    | none => rfl
    | some B =>
      cases h3 : ((phrase.map (getChordById dict)).reduceOption).get? (i + 1).toNat with
      | none => rfl
      | some C =>
        rcases hmiss with h | h | h
        · rw [h1] at h; exact absurd h (by simp)
        · rw [h2] at h; exact absurd h (by simp)
        · rw [h3] at h; exact absurd h (by simp)

theorem substitutePhrase_unrec (dict : List Chord) (phrase : List String) (i : ℤ)
    (strategy : String) (pk : Option ℤ) (A B C : Chord)
    (hgate : 0 < i ∧ i < (phrase.length : ℤ) - 1)
    (hsA : ((phrase.map (getChordById dict)).reduceOption).get? (i - 1).toNat = some A)
    (hsB : ((phrase.map (getChordById dict)).reduceOption).get? i.toNat = some B)
    (hsC : ((phrase.map (getChordById dict)).reduceOption).get? (i + 1).toNat = some C)
    (hs1 : ¬ strategy = "knn") (hs2 : ¬ strategy = "linear") (hs3 : ¬ strategy = "angular") :
    substitutePhrase dict phrase [i] strategy pk
      = .ok ⟨phrase.set i.toNat B.id,
          ⟨strategy, some A, some B, some C, some B.id, [], []⟩⟩ := by
  unfold substitutePhrase
  dsimp only
  rw [if_pos hgate, hsA, hsB, hsC]
  dsimp only
  rw [if_neg hs1, if_neg hs2, if_neg hs3]
  rfl

theorem substitutePhrase_knn (dict : List Chord) (phrase : List String) (i : ℤ)
    (pk : Option ℤ) (A B C : Chord) (nb : List DistChord)
    (hgate : 0 < i ∧ i < (phrase.length : ℤ) - 1)
    (hsA : ((phrase.map (getChordById dict)).reduceOption).get? (i - 1).toNat = some A)
    (hsB : ((phrase.map (getChordById dict)).reduceOption).get? i.toNat = some B)
    (hsC : ((phrase.map (getChordById dict)).reduceOption).get? (i + 1).toNat = some C)
    (hnb : knn B.z dict (jsK pk) ("euclidean") = .ok nb) :
    substitutePhrase dict phrase [i] ("knn") pk
      = .ok ⟨phrase.set i.toNat (match nb.head? with
            | some n => n.chord.id
            | none => B.id),
          ⟨"knn", some A, some B, some C,
            some (match nb.head? with
              | some n => n.chord.id
              | none => B.id), [], nb⟩⟩ := by
  unfold substitutePhrase
  dsimp only
  rw [if_pos hgate, hsA, hsB, hsC]
  dsimp only
  rw [if_pos rfl]
  unfold knnSubstitution
  rw [hnb]
  cases nb with
  | nil => rfl
  | cons n ns => rfl

theorem substitutePhrase_linear (dict : List Chord) (phrase : List String) (i : ℤ)
    (pk : Option ℤ) (A B C : Chord) (out : LinResult)
    (hgate : 0 < i ∧ i < (phrase.length : ℤ) - 1)
    (hsA : ((phrase.map (getChordById dict)).reduceOption).get? (i - 1).toNat = some A)
    (hsB : ((phrase.map (getChordById dict)).reduceOption).get? i.toNat = some B)
    (hsC : ((phrase.map (getChordById dict)).reduceOption).get? (i + 1).toNat = some C)
    (hlin : linearInterpolation dict A C = .ok out) :
    substitutePhrase dict phrase [i] ("linear") pk
      = .ok ⟨phrase.set i.toNat out.id,
          ⟨"linear", some A, some B, some C, some out.id, [out.geometricPoint], []⟩⟩ := by
  unfold substitutePhrase
  dsimp only
  rw [if_pos hgate, hsA, hsB, hsC]
  dsimp only
  rw [if_neg (by decide), if_pos rfl, hlin]
  rfl

theorem substitutePhrase_angular (dict : List Chord) (phrase : List String) (i : ℤ)
    (pk : Option ℤ) (A B C : Chord) (out : AngResult)
    (hgate : 0 < i ∧ i < (phrase.length : ℤ) - 1)
    (hsA : ((phrase.map (getChordById dict)).reduceOption).get? (i - 1).toNat = some A)
    (hsB : ((phrase.map (getChordById dict)).reduceOption).get? i.toNat = some B)
    (hsC : ((phrase.map (getChordById dict)).reduceOption).get? (i + 1).toNat = some C)
    (hang : knnAngularAlignment dict A B (jsK pk) = .ok out) :
    substitutePhrase dict phrase [i] ("angular") pk
      = .ok ⟨phrase.set i.toNat out.id,
          ⟨"angular", some A, some B, some C, some out.id, [], out.kNeighbors⟩⟩ := by
  unfold substitutePhrase
  dsimp only
  rw [if_pos hgate, hsA, hsB, hsC]
  dsimp only
  rw [if_neg (by decide), if_neg (by decide), if_pos rfl, hang]
  rfl

theorem full_get_resolved (dict : List Chord) (phrase : List String)
    (hres : ∀ id ∈ phrase, (getChordById dict id).isSome) (n : ℕ) :
    ((phrase.map (getChordById dict)).reduceOption).get? n
      = (phrase.get? n).bind (getChordById dict) := by
  rw [resolve_full dict phrase hres, List.get?_map]
  cases hp : phrase.get? n with
  | none => rfl
  | some id =>
    have hmem : id ∈ phrase := List.get?_mem hp
    have hs := hres id hmem
    cases hgc : getChordById dict id with
    | none => rw [hgc] at hs; exact absurd hs (by simp)
    | some c =>
      show Option.map (resolve dict) (some id) = (some id).bind (getChordById dict)
      rw [show (some id).bind (getChordById dict) = getChordById dict id from rfl, hgc]
      show some (resolve dict id) = some c
      unfold resolve
      rw [hgc]
      rfl

theorem phrase_set_target (dict : List Chord) (phrase : List String) (n : ℕ) (B : Chord)
    (hsB : ((phrase.map (getChordById dict)).reduceOption).get? n = some B)
    (hres : ∀ id ∈ phrase, (getChordById dict id).isSome) :
    phrase.set n B.id = phrase := by
  rw [full_get_resolved dict phrase hres n] at hsB
  cases hp : phrase.get? n with
  | none => rw [hp] at hsB; exact absurd hsB (by simp)
  | some idB =>
    rw [hp] at hsB
    apply set_self_of_get?
    rw [hp, getChordById_id hsB]

/-! ## Claim theorems -/

/-- C6: a call to `substitutePhrase` with zero target indices, with two
or more target indices, or with a single index at position `0` or
`len(phrase) - 1` is a no-op: the returned phrase equals the original
phrase and the result record has all context fields empty/null and no
substituted id. -/
theorem claim_C6 (dict : List Chord) (phrase : List String) (targetIndices : List ℤ)
    (strategy : String) (pk : Option ℤ)
    (h : targetIndices = [] ∨ 2 ≤ targetIndices.length
      ∨ targetIndices = [0] ∨ targetIndices = [(phrase.length : ℤ) - 1]) :
    substitutePhrase dict phrase targetIndices strategy pk
      = .ok ⟨phrase, emptyDetails strategy⟩ := by
  rcases h with rfl | hlen | rfl | rfl
  · rfl
  · cases targetIndices with
    | nil => simp at hlen
    | cons a t =>
      cases t with
      | nil => simp at hlen
      | cons b r => rfl
  · exact substitutePhrase_gate_fail dict phrase 0 strategy pk (by omega)
  · exact substitutePhrase_gate_fail dict phrase _ strategy pk (by omega)

theorem claim_C6_witness :
    substitutePhrase [] ["a", "b"] [0] ("linear") none
      = .ok ⟨["a", "b"], emptyDetails ("linear")⟩ :=
  claim_C6 [] ["a", "b"] [0] ("linear") none (Or.inr (Or.inr (Or.inl rfl)))

/-- C10: when `params.k` is absent (`undefined`/`null`) or the falsy
`0`, the orchestrator runs with the default `k = 5`: the whole result of
`substitutePhrase` is identical to a request with `k = 5`. -/
theorem claim_C10 (dict : List Chord) (phrase : List String) (targetIndices : List ℤ)
    (strategy : String) (pk : Option ℤ) (h : pk = none ∨ pk = some 0) :
    substitutePhrase dict phrase targetIndices strategy pk
      = substitutePhrase dict phrase targetIndices strategy (some 5) := by
  have hk : jsK pk = jsK (some 5) := by
    rcases h with rfl | rfl
    · rfl
    · rfl
  unfold substitutePhrase
  rw [hk]

theorem claim_C10_witness :
    substitutePhrase [⟨"a", []⟩] ["a", "a", "a"] [1] ("knn") (some 0)
      = substitutePhrase [⟨"a", []⟩] ["a", "a", "a"] [1] ("knn") (some 5) :=
  claim_C10 [⟨"a", []⟩] ["a", "a", "a"] [1] ("knn") (some 0) (Or.inr rfl)

/-- C3 counterexample: `subtract` and `add` do *not* fail on vectors of
different lengths — with a shorter first argument they silently truncate
and return a result vector (here of length 1), with no error. -/
theorem claim_C3_counterexample :
    subtract [(1:ℚ)] [2, 3] = [some (1 - 2)]
    ∧ add [(1:ℚ)] [2, 3] = [some (1 + 2)]
    ∧ (subtract [(1:ℚ)] [2, 3]).length = 1
    ∧ [(1:ℚ)].length ≠ [(2:ℚ), 3].length :=
  ⟨rfl, rfl, rfl, by decide⟩

/-- C3 (amended): `subtract(a, b)` and `add(a, b)` never raise: they
always return a vector of `a`'s length (elementwise when
`len(a) ≤ len(b)`, silently ignoring `b`'s tail); only `euclidean`
raises the dimension-mismatch error, and `scale` has no length
constraint. -/
theorem claim_C3 (a b : List ℚ) :
    (subtract a b).length = a.length
    ∧ (add a b).length = a.length
    ∧ (a.length ≤ b.length →
        subtract a b = a.zipWith (fun x y => some (x - y)) b
        ∧ add a b = a.zipWith (fun x y => some (x + y)) b)
    ∧ (∀ t : ℚ, (scale a t).length = a.length)
    ∧ (a.length ≠ b.length →
        euclidean (liftV a) (liftV b)
          = .error ("Vectors must have the same dimension for distance calculation.")) := by
  refine ⟨subtract_length a b, add_length a b, ?_, fun t => scale_length a t, ?_⟩
  · intro h
    exact ⟨subtract_eq_zipWith a b h, add_eq_zipWith a b h⟩
  · intro h
    exact euclidean_mismatch _ _ (by simpa [liftV] using h)

theorem claim_C3_witness :
    (subtract [] [(1:ℚ)]).length = 0
    ∧ euclidean (liftV []) (liftV [(1:ℚ)])
        = .error ("Vectors must have the same dimension for distance calculation.") := by
  obtain ⟨h1, _, _, _, h5⟩ := claim_C3 [] [(1:ℚ)]
  exact ⟨h1, h5 (by decide)⟩

/-- C4 counterexample: with a valid interior target and all three
context chords found, an unrecognized strategy name ("cubic") leaves the
phrase unchanged and records no geometry, but the result record is *not*
the empty no-op shape of a failed gate: the context fields hold A, B, C
and `substitutedChordId` is B's id, not null. -/
theorem claim_C4_counterexample :
    substitutePhrase [⟨"a", []⟩, ⟨"b", []⟩, ⟨"c", []⟩] ["a", "b", "c"] [1] ("cubic") none
      = .ok ⟨["a", "b", "c"],
          ⟨"cubic", some ⟨"a", []⟩, some ⟨"b", []⟩, some ⟨"c", []⟩, some ("b"), [], []⟩⟩
    ∧ (⟨"cubic", some ⟨"a", []⟩, some ⟨"b", []⟩, some ⟨"c", []⟩, some ("b"), [], []⟩
        : SubstitutionDetails) ≠ emptyDetails ("cubic") :=
  ⟨rfl, by decide⟩

/-- C4 (amended): for a valid target with all three contexts found, an
unrecognized strategy name does not throw; it writes B's own id back at
position `i` (so the phrase is unchanged in value whenever the phrase's
identifiers resolve), and records no geometry (`geometricPoints` and
`kNeighbors` empty); but the result record carries the resolved context
`A`, `B`, `C` and `substitutedChordId = B.id` — not the all-null shape
of a failed gate. -/
theorem claim_C4 (dict : List Chord) (phrase : List String) (i : ℤ)
    (strategy : String) (pk : Option ℤ) (A B C : Chord)
    (hgate : 0 < i ∧ i < (phrase.length : ℤ) - 1)
    (hsA : ((phrase.map (getChordById dict)).reduceOption).get? (i - 1).toNat = some A)
    (hsB : ((phrase.map (getChordById dict)).reduceOption).get? i.toNat = some B)
    (hsC : ((phrase.map (getChordById dict)).reduceOption).get? (i + 1).toNat = some C)
    (hs1 : ¬ strategy = "knn") (hs2 : ¬ strategy = "linear") (hs3 : ¬ strategy = "angular") :
    substitutePhrase dict phrase [i] strategy pk
      = .ok ⟨phrase.set i.toNat B.id,
          ⟨strategy, some A, some B, some C, some B.id, [], []⟩⟩
    ∧ ((∀ id ∈ phrase, (getChordById dict id).isSome) → phrase.set i.toNat B.id = phrase) := by
  refine ⟨substitutePhrase_unrec dict phrase i strategy pk A B C hgate hsA hsB hsC hs1 hs2 hs3, ?_⟩
  intro hres
  exact phrase_set_target dict phrase i.toNat B hsB hres

theorem claim_C4_witness :
    substitutePhrase [⟨"a", []⟩, ⟨"b", []⟩, ⟨"c", []⟩] ["a", "b", "c"] [1] ("cubic") none
      = .ok ⟨["a", "b", "c"].set 1 ("b"),
          ⟨"cubic", some ⟨"a", []⟩, some ⟨"b", []⟩, some ⟨"c", []⟩, some ("b"), [], []⟩⟩
    ∧ (["a", "b", "c"].set 1 ("b") = ["a", "b", "c"]) := by
  obtain ⟨h1, h2⟩ := claim_C4 [⟨"a", []⟩, ⟨"b", []⟩, ⟨"c", []⟩] ["a", "b", "c"] 1 ("cubic")
    none ⟨"a", []⟩ ⟨"b", []⟩ ⟨"c", []⟩ (by decide) rfl rfl rfl
    (by decide) (by decide) (by decide)
  exact ⟨h1, h2 (by decide)⟩

/-- C7: the Linear strategy computes the midpoint
`M = 0.5·A.z + 0.5·C.z`, returns as substituted id the id of the first
chord (in dictionary order, i.e. ties broken by dictionary order) whose
`z` is at globally minimal Euclidean distance from `M`, with geometry
payload exactly `M`; on an empty dictionary it returns `C`'s id with the
computed `M`.  (Distances are compared via their squares; `sqrt` is
strictly monotone.) -/
theorem claim_C7 (dict : List Chord) (A C : Chord) (D : ℕ)
    (hA : A.z.length = D) (hC : C.z.length = D) (hd : ∀ c ∈ dict, c.z.length = D) :
    (dict = [] → linearInterpolation dict A C = .ok ⟨C.id, liftV (midpointV A.z C.z)⟩)
    ∧ (dict ≠ [] → ∃ c l₁ l₂,
        dict = l₁ ++ c :: l₂
        ∧ linearInterpolation dict A C = .ok ⟨c.id, liftV (midpointV A.z C.z)⟩
        ∧ (∀ y ∈ dict, sqDist (midpointV A.z C.z) c.z ≤ sqDist (midpointV A.z C.z) y.z)
        ∧ (∀ y ∈ l₁, sqDist (midpointV A.z C.z) c.z < sqDist (midpointV A.z C.z) y.z)) :=
  linearInterpolation_spec dict A C D hA hC hd

theorem claim_C7_witness :
    ([(⟨"m", []⟩ : Chord)] = [] →
      linearInterpolation [⟨"m", []⟩] ⟨"p", []⟩ ⟨"q", []⟩
        = .ok ⟨"q", liftV (midpointV [] [])⟩)
    ∧ ([(⟨"m", []⟩ : Chord)] ≠ [] → ∃ c l₁ l₂,
        [(⟨"m", []⟩ : Chord)] = l₁ ++ c :: l₂
        ∧ linearInterpolation [⟨"m", []⟩] ⟨"p", []⟩ ⟨"q", []⟩
            = .ok ⟨c.id, liftV (midpointV [] [])⟩
        ∧ (∀ y ∈ [(⟨"m", []⟩ : Chord)],
            sqDist (midpointV [] []) c.z ≤ sqDist (midpointV [] []) y.z)
        ∧ (∀ y ∈ l₁, sqDist (midpointV [] []) c.z < sqDist (midpointV [] []) y.z)) :=
  claim_C7 [⟨"m", []⟩] ⟨"p", []⟩ ⟨"q", []⟩ 0 rfl rfl (by decide)

/-- C5 counterexample to the unconditional self-exclusion: with two
dictionary entries sharing the query's exact vector, `kNearest` drops
only the first of them and *returns* the second — a chord whose `z`
equals the query vector `v`. -/
theorem claim_C5_counterexample :
    knn [] [⟨"X", []⟩, ⟨"Y", []⟩] 1 ("euclidean") = .ok [⟨⟨"Y", []⟩, some 0⟩]
    ∧ (⟨"Y", []⟩ : Chord).z = ([] : List ℚ) :=
  ⟨rfl, rfl⟩

/-- C5 (amended): for `k ≥ 0` and a uniform dimension, `kNearest`
annotates every chord with its distance to `v`, stable-sorts ascending
(ties kept in dictionary iteration order, stated via the filters at each
distance value), drops the first sorted entry, and returns the next `k`
(as many as available, without error; the result length is
`min k (|dict| - 1)`) in non-decreasing distance order; the self-match
is excluded whenever *exactly one* chord sits at `v` (with duplicated
`z` vectors a later source point can be returned). -/
theorem claim_C5 (v : List ℚ) (dict : List Chord) (k : ℤ) (D : ℕ) (hk : 0 ≤ k)
    (hv : v.length = D) (hd : ∀ c ∈ dict, c.z.length = D) :
    ∃ (res sorted : List DistChord),
      knn v dict k ("euclidean") = .ok res
      ∧ sorted.Perm (dict.map (fun c => ⟨c, some (sqDist v c.z)⟩))
      ∧ sorted.Pairwise distR
      ∧ (∀ d : ℚ, sorted.filter (fun x => decide (x.distance = some d))
          = (dict.map (fun c => (⟨c, some (sqDist v c.z)⟩ : DistChord))).filter
              (fun x => decide (x.distance = some d)))
      ∧ res = (sorted.drop 1).take k.toNat
      ∧ res.length = min k.toNat (dict.length - 1)
      ∧ res.Pairwise distR
      ∧ (∀ x ∈ res, x.chord ∈ dict ∧ x.distance = some (sqDist v x.chord.z))
      ∧ (dict.countP (fun c => decide (c.z = v)) = 1 → ∀ x ∈ res, x.chord.z ≠ v) := by
  obtain ⟨res, sorted, h1, h2, h3, h4, h5, h6, h7, h8⟩ := knn_spec v dict k D hk hv hd
  refine ⟨res, sorted, h1, h2, h3, h4, h5, h6, h7, h8, ?_⟩
  intro huniq
  exact knn_self_exclusion v dict k D hk hv hd huniq res h1

theorem claim_C5_witness :
    ∃ (res sorted : List DistChord),
      knn [] [(⟨"X", []⟩ : Chord)] 0 ("euclidean") = .ok res
      ∧ sorted.Perm ([(⟨"X", []⟩ : Chord)].map (fun c => ⟨c, some (sqDist [] c.z)⟩))
      ∧ sorted.Pairwise distR
      ∧ (∀ d : ℚ, sorted.filter (fun x => decide (x.distance = some d))
          = ([(⟨"X", []⟩ : Chord)].map
              (fun c => (⟨c, some (sqDist [] c.z)⟩ : DistChord))).filter
              (fun x => decide (x.distance = some d)))
      ∧ res = (sorted.drop 1).take (0 : ℤ).toNat
      ∧ res.length = min (0 : ℤ).toNat ([(⟨"X", []⟩ : Chord)].length - 1)
      ∧ res.Pairwise distR
      ∧ (∀ x ∈ res, x.chord ∈ [(⟨"X", []⟩ : Chord)]
          ∧ x.distance = some (sqDist [] x.chord.z))
      ∧ ([(⟨"X", []⟩ : Chord)].countP (fun c => decide (c.z = [])) = 1 →
          ∀ x ∈ res, x.chord.z ≠ []) :=
  claim_C5 [] [⟨"X", []⟩] 0 0 (by decide) rfl (by decide)

/-- C8: the Angular strategy screens the `kNearest(B.z, dict, k)`
candidates against the reference direction `v_AB = B.z - A.z` and picks
the first candidate (in encounter order) whose angle to `v_AB` is the
strict minimum: no candidate has a strictly smaller angle, every earlier
candidate has a strictly greater one, and the selected candidate's angle
is never the zero-magnitude sentinel (`Infinity`); if every candidate's
angle is the sentinel, or there are no candidates at all, it returns
`B`'s id unchanged (with the empty candidate list in the latter case). -/
theorem claim_C8 (dict : List Chord) (A B : Chord) (k : ℤ) (D : ℕ)
    (hA : A.z.length = D) (hB : B.z.length = D) (hd : ∀ c ∈ dict, c.z.length = D) :
    ∀ nb, knn B.z dict k ("euclidean") = .ok nb →
    ∃ res, knnAngularAlignment dict A B k = .ok res
      ∧ res.kNeighbors = nb
      ∧ (nb = [] → res.id = B.id)
      ∧ ((∀ c ∈ nb, angleOf A B c = .posInf) → res.id = B.id)
      ∧ ((∃ c ∈ nb, angleOf A B c ≠ .posInf) →
          ∃ c ∈ nb, res.id = c.chord.id
            ∧ angleOf A B c ≠ .posInf
            ∧ (∀ m ∈ nb, (angleOf A B m).ltB (angleOf A B c) = false)
            ∧ ∃ l₁ l₂, nb = l₁ ++ c :: l₂
                ∧ (∀ m ∈ l₁, (angleOf A B c).ltB (angleOf A B m) = true)) :=
  knnAngularAlignment_spec dict A B k D hA hB hd

theorem claim_C8_witness :
    ∃ res, knnAngularAlignment [⟨"a", []⟩, ⟨"b", []⟩] ⟨"a", []⟩ ⟨"b", []⟩ 1 = .ok res
      ∧ res.kNeighbors = [⟨⟨"b", []⟩, some 0⟩]
      ∧ ([(⟨⟨"b", []⟩, some 0⟩ : DistChord)] = [] → res.id = "b")
      ∧ ((∀ c ∈ [(⟨⟨"b", []⟩, some 0⟩ : DistChord)],
            angleOf ⟨"a", []⟩ ⟨"b", []⟩ c = .posInf) → res.id = "b")
      ∧ ((∃ c ∈ [(⟨⟨"b", []⟩, some 0⟩ : DistChord)],
            angleOf ⟨"a", []⟩ ⟨"b", []⟩ c ≠ .posInf) →
          ∃ c ∈ [(⟨⟨"b", []⟩, some 0⟩ : DistChord)], res.id = c.chord.id
            ∧ angleOf ⟨"a", []⟩ ⟨"b", []⟩ c ≠ .posInf
            ∧ (∀ m ∈ [(⟨⟨"b", []⟩, some 0⟩ : DistChord)],
                (angleOf ⟨"a", []⟩ ⟨"b", []⟩ m).ltB
                  (angleOf ⟨"a", []⟩ ⟨"b", []⟩ c) = false)
            ∧ ∃ l₁ l₂, [(⟨⟨"b", []⟩, some 0⟩ : DistChord)] = l₁ ++ c :: l₂
                ∧ (∀ m ∈ l₁, (angleOf ⟨"a", []⟩ ⟨"b", []⟩ c).ltB
                    (angleOf ⟨"a", []⟩ ⟨"b", []⟩ m) = true)) := by
  have hres := claim_C8 [⟨"a", []⟩, ⟨"b", []⟩] ⟨"a", []⟩ ⟨"b", []⟩ 1 0 rfl rfl (by decide)
    [⟨⟨"b", []⟩, some 0⟩] rfl
  exact hres

/-- C1 counterexample: an unknown identifier at a position *other than*
`i-1`, `i`, `i+1` does not merely leave the context resolution alone —
because `fullPhrase` filters unresolved ids out, the context indices
shift.  Here `phrase[1] = "x"` is unknown, so by the claim the request
must decline (phrase unchanged, no substituted id); the code instead
resolves the shifted context (A = "a", B = "c", C = "d"), substitutes,
and changes the phrase. -/
theorem claim_C1_counterexample :
    getChordById [⟨"a", []⟩, ⟨"c", []⟩, ⟨"d", []⟩] ("x") = none
    ∧ substitutePhrase [⟨"a", []⟩, ⟨"c", []⟩, ⟨"d", []⟩] ["a", "x", "c", "d"] [1] ("foo") none
        = .ok ⟨["a", "c", "c", "d"],
            ⟨"foo", some ⟨"a", []⟩, some ⟨"c", []⟩, some ⟨"d", []⟩, some ("c"), [], []⟩⟩
    ∧ (["a", "c", "c", "d"] : List String) ≠ ["a", "x", "c", "d"] :=
  ⟨rfl, rfl, by decide⟩

/-- C1 (amended): `substitutePhrase` resolves the context from the
*filtered* phrase (unknown identifiers dropped): A, B, C are the
elements at positions `i-1`, `i`, `i+1` of the list of resolved chords,
and the request declines exactly when that filtered list lacks one of
those positions; only when the phrase's identifiers all resolve do these
coincide with the dictionary lookups of `phrase[i-1]`, `phrase[i]`,
`phrase[i+1]` — an unknown identifier elsewhere shifts the context
instead of blocking the substitution. -/
theorem claim_C1 (dict : List Chord) (phrase : List String) (i : ℤ)
    (strategy : String) (pk : Option ℤ) (D : ℕ)
    (hgate : 0 < i ∧ i < (phrase.length : ℤ) - 1)
    (hd : ∀ c ∈ dict, c.z.length = D) :
    ((((phrase.map (getChordById dict)).reduceOption).get? (i - 1).toNat = none
      ∨ ((phrase.map (getChordById dict)).reduceOption).get? i.toNat = none
      ∨ ((phrase.map (getChordById dict)).reduceOption).get? (i + 1).toNat = none) →
      substitutePhrase dict phrase [i] strategy pk = .ok ⟨phrase, emptyDetails strategy⟩)
    ∧ (∀ A B C,
        ((phrase.map (getChordById dict)).reduceOption).get? (i - 1).toNat = some A →
        ((phrase.map (getChordById dict)).reduceOption).get? i.toNat = some B →
        ((phrase.map (getChordById dict)).reduceOption).get? (i + 1).toNat = some C →
        ∃ r, substitutePhrase dict phrase [i] strategy pk = .ok r
          ∧ r.substitutionDetails.originalA = some A
          ∧ r.substitutionDetails.originalB = some B
          ∧ r.substitutionDetails.originalC = some C
          ∧ r.substitutionDetails.substitutedChordId.isSome = true)
    ∧ ((∀ id ∈ phrase, (getChordById dict id).isSome) →
        ((phrase.map (getChordById dict)).reduceOption).get? (i - 1).toNat
            = (phrase.get? (i - 1).toNat).bind (getChordById dict)
        ∧ ((phrase.map (getChordById dict)).reduceOption).get? i.toNat
            = (phrase.get? i.toNat).bind (getChordById dict)
        ∧ ((phrase.map (getChordById dict)).reduceOption).get? (i + 1).toNat
            = (phrase.get? (i + 1).toNat).bind (getChordById dict)) := by
  refine ⟨?_, ?_, ?_⟩
  · intro hmiss
    exact substitutePhrase_ctx_missing dict phrase i strategy pk hgate hmiss
  · intro A B C hsA hsB hsC
    have hAmem : A ∈ dict := mem_fullPhrase_dict (List.get?_mem hsA)
    have hBmem : B ∈ dict := mem_fullPhrase_dict (List.get?_mem hsB)
    have hCmem : C ∈ dict := mem_fullPhrase_dict (List.get?_mem hsC)
    by_cases h1 : strategy = "knn"
    · subst h1
      have hnb := knn_ok B.z dict (jsK pk) D (hd B hBmem) hd
      refine ⟨_, substitutePhrase_knn dict phrase i pk A B C _ hgate hsA hsB hsC hnb,
        rfl, rfl, rfl, rfl⟩
    · by_cases h2 : strategy = "linear"
      · subst h2
        by_cases hdict : dict = []
        · have hlin := (linearInterpolation_spec dict A C D (hd A hAmem) (hd C hCmem) hd).1 hdict
          refine ⟨_, substitutePhrase_linear dict phrase i pk A B C _ hgate hsA hsB hsC hlin,
            rfl, rfl, rfl, rfl⟩
        · obtain ⟨c, l₁, l₂, _, hlin, _, _⟩ :=
            (linearInterpolation_spec dict A C D (hd A hAmem) (hd C hCmem) hd).2 hdict
          refine ⟨_, substitutePhrase_linear dict phrase i pk A B C _ hgate hsA hsB hsC hlin,
            rfl, rfl, rfl, rfl⟩
      · by_cases h3 : strategy = "angular"
        · subst h3
          have hnb := knn_ok B.z dict (jsK pk) D (hd B hBmem) hd
          obtain ⟨res, hok, _, _, _, _⟩ := knnAngularAlignment_spec dict A B (jsK pk) D
            (hd A hAmem) (hd B hBmem) hd _ hnb
          refine ⟨_, substitutePhrase_angular dict phrase i pk A B C res hgate hsA hsB hsC hok,
            rfl, rfl, rfl, rfl⟩
        · refine ⟨_, substitutePhrase_unrec dict phrase i strategy pk A B C hgate
            hsA hsB hsC h1 h2 h3, rfl, rfl, rfl, rfl⟩
  · intro hres
    exact ⟨full_get_resolved dict phrase hres _, full_get_resolved dict phrase hres _,
      full_get_resolved dict phrase hres _⟩

theorem claim_C1_witness :
    ∃ r, substitutePhrase [⟨"a", []⟩, ⟨"b", []⟩, ⟨"c", []⟩] ["a", "b", "c"] [1] ("foo") none
        = .ok r
      ∧ r.substitutionDetails.originalA = some ⟨"a", []⟩
      ∧ r.substitutionDetails.originalB = some ⟨"b", []⟩
      ∧ r.substitutionDetails.originalC = some ⟨"c", []⟩
      ∧ r.substitutionDetails.substitutedChordId.isSome = true := by
  obtain ⟨ha, hb, hc⟩ := claim_C1 [⟨"a", []⟩, ⟨"b", []⟩, ⟨"c", []⟩] ["a", "b", "c"] 1
    ("foo") none 0 (by decide) (by decide)
  exact hb ⟨"a", []⟩ ⟨"b", []⟩ ⟨"c", []⟩ rfl rfl rfl

/-- C2 counterexample: a valid request with `k = 0` does *not* use an
empty neighbor pool — `params.k || 5` coerces the falsy `0` to the
default `5`, the KNN strategy finds real neighbors, and the phrase is
changed rather than left alone (here `"b"` is replaced by `"a"`, and the
recorded neighbor list is nonempty). -/
theorem claim_C2_counterexample :
    substitutePhrase [⟨"b", []⟩, ⟨"a", []⟩, ⟨"c", []⟩] ["a", "b", "c"] [1] ("knn") (some 0)
      = .ok ⟨["a", "a", "c"],
          ⟨"knn", some ⟨"a", []⟩, some ⟨"b", []⟩, some ⟨"c", []⟩, some ("a"),
            [], [⟨⟨"a", []⟩, some 0⟩, ⟨⟨"c", []⟩, some 0⟩]⟩⟩
    ∧ (["a", "a", "c"] : List String) ≠ ["a", "b", "c"] :=
  ⟨rfl, by decide⟩

/-- C2 (amended): on a valid request with `k = -1` (a genuinely
negative `k`; `k = 0` is coerced to the default `5`, and `k ≤ -2` wraps
around under JS slice semantics), both the KNN and the Angular strategy
compute an empty neighbor list and fall back to writing B's own id back,
leaving the phrase unchanged in value; this is a defined result, not an
error. -/
theorem claim_C2 (dict : List Chord) (phrase : List String) (i : ℤ)
    (strategy : String) (pk : Option ℤ) (D : ℕ) (A B C : Chord)
    (hstrat : strategy = "knn" ∨ strategy = "angular")
    (hpk : pk = some (-1))
    (hgate : 0 < i ∧ i < (phrase.length : ℤ) - 1)
    (hd : ∀ c ∈ dict, c.z.length = D)
    (hsA : ((phrase.map (getChordById dict)).reduceOption).get? (i - 1).toNat = some A)
    (hsB : ((phrase.map (getChordById dict)).reduceOption).get? i.toNat = some B)
    (hsC : ((phrase.map (getChordById dict)).reduceOption).get? (i + 1).toNat = some C) :
    ∃ r, substitutePhrase dict phrase [i] strategy pk = .ok r
      ∧ r.substitutionDetails.kNeighbors = []
      ∧ r.substitutionDetails.substitutedChordId = some B.id
      ∧ r.generatedPhraseIds = phrase.set i.toNat B.id
      ∧ ((∀ id ∈ phrase, (getChordById dict id).isSome) → r.generatedPhraseIds = phrase) := by
  have hAmem : A ∈ dict := mem_fullPhrase_dict (List.get?_mem hsA)
  have hBmem : B ∈ dict := mem_fullPhrase_dict (List.get?_mem hsB)
  have hk : jsK pk = -1 := by rw [hpk]; rfl
  have hnb : knn B.z dict (jsK pk) ("euclidean") = .ok [] := by
    rw [hk, knn_ok B.z dict (-1) D (hd B hBmem) hd,
      show ((-1 : ℤ) + 1) = 0 from rfl, jsSlice1_zero]
  rcases hstrat with rfl | rfl
  · refine ⟨_, substitutePhrase_knn dict phrase i pk A B C [] hgate hsA hsB hsC hnb,
      rfl, rfl, rfl, ?_⟩
    intro hres
    exact phrase_set_target dict phrase i.toNat B hsB hres
  · obtain ⟨res, hok, hkn, hemp, _, _⟩ := knnAngularAlignment_spec dict A B (jsK pk) D
      (hd A hAmem) (hd B hBmem) hd [] hnb
    have hid : res.id = B.id := hemp rfl
    refine ⟨_, substitutePhrase_angular dict phrase i pk A B C res hgate hsA hsB hsC hok,
      hkn, by rw [hid], by rw [hid], ?_⟩
    intro hres
    rw [hid]
    exact phrase_set_target dict phrase i.toNat B hsB hres

theorem claim_C2_witness :
    ∃ r, substitutePhrase [⟨"a", []⟩, ⟨"b", []⟩, ⟨"c", []⟩] ["a", "b", "c"] [1]
        ("knn") (some (-1)) = .ok r
      ∧ r.substitutionDetails.kNeighbors = []
      ∧ r.substitutionDetails.substitutedChordId = some (Chord.mk "b" []).id
      ∧ r.generatedPhraseIds = ["a", "b", "c"].set (1 : ℤ).toNat (Chord.mk "b" []).id
      ∧ ((∀ id ∈ ["a", "b", "c"], (getChordById [⟨"a", []⟩, ⟨"b", []⟩, ⟨"c", []⟩] id).isSome) →
          r.generatedPhraseIds = ["a", "b", "c"]) :=
  claim_C2 [⟨"a", []⟩, ⟨"b", []⟩, ⟨"c", []⟩] ["a", "b", "c"] 1 ("knn") (some (-1)) 0
    ⟨"a", []⟩ ⟨"b", []⟩ ⟨"c", []⟩ (Or.inl rfl) rfl (by decide) (by decide) rfl rfl rfl
